import Mathlib

/-!
Shallow embedding of the post-processing pipeline of the CorpParse
company-data extraction service (`backend/utils.py` and
`backend/agent_workflow.py`): paragraph segmentation, date-string
normalization, founders-field coercion, and record deduplication/merging.
Python strings are modelled as Lean `String`s; the Python regexes are
translated into deterministic scanners over `List Char` that implement the
leftmost-greedy matching the originals perform.  Definitions come first,
then the theorems about them.
-/

/-- The whitespace characters matched by the Python regex class `\s` and by
`str.strip` on ASCII input (on the ASCII range the Unicode whitespace set
used by Python coincides with these six characters). -/
def isPySpace (c : Char) : Bool :=
  c = ' ' || c = '\t' || c = '\n' || c = '\r' || c = '\x0b' || c = '\x0c'

/-- Python `str.strip()` (restricted to ASCII whitespace). -/
def pyStrip (s : String) : String :=
  ⟨((s.data.dropWhile isPySpace).reverse.dropWhile isPySpace).reverse⟩

/-- Python `str.casefold()`, restricted to the ASCII range, where case
folding agrees with lower-casing (`Char.toLower` lowers exactly the basic
latin letters). -/
def casefold (s : String) : String := ⟨s.data.map Char.toLower⟩

/-- Strict lexicographic order on character lists by code point: how Python
compares strings with `<`. -/
def lexLt : List Char → List Char → Bool
  | [], [] => false
  | [], _ :: _ => true
  | _ :: _, [] => false
  | a :: as, b :: bs => decide (a < b) || (decide (a = b) && lexLt as bs)

/-- Python string `<=` (used as the sort comparator below). -/
def strLe (s t : String) : Bool := !(lexLt t.data s.data)

/-- Python `min(a, b)` on strings: returns `a` unless `b` is strictly
smaller. -/
def pyMinStr (a b : String) : String := if lexLt b.data a.data then b else a

/-- The suffix of `w` strictly after its last newline. -/
def afterLastNewline (w : List Char) : List Char :=
  (w.reverse.takeWhile (fun c => c != '\n')).reverse

/-- Leftmost greedy match of the separator regex `\n\s*\n+` at the head of
`l`: the match succeeds iff `l` starts with a newline and the maximal
whitespace run at the head of `l` contains a second newline; the match then
extends through the last newline of that run.  Returns the remainder of the
input after the match. -/
def sepRemainder (l : List Char) : Option (List Char) :=
  match l with
  | [] => none
  | c :: rest =>
    if c = '\n' then
      let run := rest.takeWhile isPySpace
      if run.contains '\n' then
        some (afterLastNewline run ++ rest.drop run.length)
      else none
    else none

/-- Fuel-driven worker for `re.split(r"\n\s*\n+", ·)`: walk left to right,
cutting at each leftmost separator match.  Structural recursion on the fuel
keeps the function kernel-computable; `splitRe_eq` below shows the fuel is
irrelevant once it exceeds the input length. -/
def splitReGo : Nat → List Char → List (List Char)
  | 0, _ => [[]]
  | fuel + 1, l =>
    match sepRemainder l with
    | some r => [] :: splitReGo fuel r
    | none =>
      match l with
      | [] => [[]]
      | c :: rest =>
        match splitReGo fuel rest with
        | [] => [[c]]
        | b :: bs => (c :: b) :: bs

/-- `re.split(r"\n\s*\n+", ·)` on a character list. -/
def splitRe (l : List Char) : List (List Char) := splitReGo (l.length + 1) l

/-- `split_paragraphs` from `backend/utils.py`:
`re.split(r"\n\s*\n+", text.strip())`, then strip each block and drop the
blocks that are empty after stripping. -/
def split_paragraphs (text : String) : List String :=
  ((splitRe (pyStrip text).data).map (fun b => pyStrip ⟨b⟩)).filter
    (fun b => b != "")

/-- Python `str.lower()` on the ASCII range (`Char.toLower` lowers exactly
the basic latin letters, as `str.lower` does on ASCII input). -/
def pyLower (s : String) : String := ⟨s.data.map Char.toLower⟩

/-- The `MONTHS` table from `backend/utils.py` (keys are already
lower-case; tokens are looked up after `.strip().lower()`). -/
def MONTHS : List (String × Nat) :=
  [("jan", 1), ("january", 1),
   ("feb", 2), ("february", 2),
   ("mar", 3), ("march", 3),
   ("apr", 4), ("april", 4),
   ("may", 5),
   ("jun", 6), ("june", 6),
   ("jul", 7), ("july", 7),
   ("aug", 8), ("august", 8),
   ("sep", 9), ("sept", 9), ("september", 9),
   ("oct", 10), ("october", 10),
   ("nov", 11), ("november", 11),
   ("dec", 12), ("december", 12)]

/-- `_month_to_num` from `backend/utils.py`. -/
def _month_to_num (token : String) : Option Nat :=
  MONTHS.lookup (pyLower (pyStrip token))

/-- Numeric value of an all-digit character group (`int(...)` via
`_safe_int`; on the digit groups captured by the regexes `int` never
fails, so no `Option` is needed here). -/
def digitsVal (ds : List Char) : Nat :=
  ds.foldl (fun acc c => 10 * acc + (c.toNat - 48)) 0

/-- Decimal digit character for `d % 10`. -/
def digitChar (d : Nat) : Char := Char.ofNat (48 + d % 10)

/-- Decimal numeral worker (structural recursion on fuel keeps it
kernel-computable; `n + 1` units of fuel always suffice). -/
def natDigitsGo : Nat → Nat → List Char
  | 0, _ => []
  | fuel + 1, n =>
    if n < 10 then [digitChar n]
    else natDigitsGo fuel (n / 10) ++ [digitChar (n % 10)]

/-- Decimal numeral of `n`, most significant digit first. -/
def natDigits (n : Nat) : List Char := natDigitsGo (n + 1) n

/-- `"%0*d"` for a nonnegative argument: the decimal numeral left-padded
with zeros to width `w`. -/
def padNum (w n : Nat) : List Char :=
  List.replicate (w - (natDigits n).length) '0' ++ natDigits n

/-- `_fmt_date` from `backend/utils.py`: month is clamped into [1, 12] and
day into [1, 28] (`m or 1` turns an absent/zero value into the default 1),
then the result is printed as `f"{y:04d}-{m:02d}-{d:02d}"`. -/
def _fmt_date (y : Nat) (m : Nat) (d : Nat) : String :=
  let m2 := max 1 (min 12 (if m = 0 then 1 else m))
  let d2 := max 1 (min 28 (if d = 0 then 1 else d))
  ⟨padNum 4 y ++ '-' :: padNum 2 m2 ++ '-' :: padNum 2 d2⟩

/-- Is `c` one of the date separators: a dash or a slash. -/
def isDateSep (c : Char) : Bool := c = '-' || c = '/'

/-- `\s+`: require at least one whitespace character, then skip the whole
greedy run. -/
def skipWs1 (l : List Char) : Option (List Char) :=
  match l with
  | c :: rest => if isPySpace c then some (rest.dropWhile isPySpace) else none
  | [] => none

/-- `,?\s+`: an optional comma followed by mandatory whitespace (if the
comma is present but no whitespace follows, backtracking over the optional
comma cannot succeed either, because a comma is not whitespace). -/
def skipCommaWs1 (l : List Char) : Option (List Char) :=
  match l with
  | ',' :: rest => skipWs1 rest
  | l => skipWs1 l

/-- `_try_iso`: the anchored match against
a four-digit year, a dash or slash, one or two digits, a dash or slash,
one or two digits, anchored with optional whitespace.  Each greedy digit group is a
maximal digit run (a shorter run would put a digit where the non-digit
separator or the end anchor must match), and the year guard `if y:` rejects
the value 0. -/
def _try_iso (s : String) : Option String :=
  let l0 := s.data.dropWhile isPySpace
  let y := l0.takeWhile Char.isDigit
  match l0.dropWhile Char.isDigit with
  | c1 :: l1 =>
    if isDateSep c1 ∧ y.length = 4 then
      let mo := l1.takeWhile Char.isDigit
      match l1.dropWhile Char.isDigit with
      | c2 :: l2 =>
        if isDateSep c2 ∧ 1 ≤ mo.length ∧ mo.length ≤ 2 then
          let d := l2.takeWhile Char.isDigit
          if 1 ≤ d.length ∧ d.length ≤ 2 ∧
              (l2.dropWhile Char.isDigit).dropWhile isPySpace = [] ∧
              digitsVal y ≠ 0 then
            some (_fmt_date (digitsVal y) (digitsVal mo) (digitsVal d))
          else none
        else none
      | [] => none
    else none
  | [] => none

/-- `_try_month_day_year`: `^\s*([A-Za-z]+)\s+(\d{1,2}),?\s+(\d{4})\s*$`
(month name first), then `^\s*(\d{1,2})\s+([A-Za-z]+),?\s+(\d{4})\s*$`
(day first); each branch requires the year, the resolved month and the day
to be nonzero (`if y and mo and d:`). -/
def _try_month_day_year (s : String) : Option String :=
  let l0 := s.data.dropWhile isPySpace
  let first :=
    let tok := l0.takeWhile Char.isAlpha
    if tok.length = 0 then none
    else
      match skipWs1 (l0.dropWhile Char.isAlpha) with
      | none => none
      | some l1 =>
        let d := l1.takeWhile Char.isDigit
        if 1 ≤ d.length ∧ d.length ≤ 2 then
          match skipCommaWs1 (l1.dropWhile Char.isDigit) with
          | none => none
          | some l2 =>
            let y := l2.takeWhile Char.isDigit
            if y.length = 4 ∧ (l2.dropWhile Char.isDigit).dropWhile isPySpace = [] then
              match _month_to_num ⟨tok⟩ with
              | some mo =>
                if digitsVal y ≠ 0 ∧ digitsVal d ≠ 0 then
                  some (_fmt_date (digitsVal y) mo (digitsVal d))
                else none
              | none => none
            else none
          else none
  match first with
  | some v => some v
  | none =>
    let d := l0.takeWhile Char.isDigit
    if 1 ≤ d.length ∧ d.length ≤ 2 then
      match skipWs1 (l0.dropWhile Char.isDigit) with
      | none => none
      | some l1 =>
        let tok := l1.takeWhile Char.isAlpha
        if tok.length = 0 then none
        else
          match skipCommaWs1 (l1.dropWhile Char.isAlpha) with
          | none => none
          | some l2 =>
            let y := l2.takeWhile Char.isDigit
            if y.length = 4 ∧ (l2.dropWhile Char.isDigit).dropWhile isPySpace = [] then
              match _month_to_num ⟨tok⟩ with
              | some mo =>
                if digitsVal y ≠ 0 ∧ digitsVal d ≠ 0 then
                  some (_fmt_date (digitsVal y) mo (digitsVal d))
                else none
              | none => none
            else none
    else none

/-- `_try_year_month`: four digits, a dash or slash, one or two digits,
anchored (guard `if y:` only),
then `^\s*([A-Za-z]+)\s+(\d{4})\s*$`, then `^\s*(\d{4})\s+([A-Za-z]+)\s*$`
(both with guard `if y and mo:`); day defaults to 1. -/
def _try_year_month (s : String) : Option String :=
  let l0 := s.data.dropWhile isPySpace
  let numeric :=
    let y := l0.takeWhile Char.isDigit
    match l0.dropWhile Char.isDigit with
    | c1 :: l1 =>
      if isDateSep c1 ∧ y.length = 4 then
        let mo := l1.takeWhile Char.isDigit
        if 1 ≤ mo.length ∧ mo.length ≤ 2 ∧
            (l1.dropWhile Char.isDigit).dropWhile isPySpace = [] ∧
            digitsVal y ≠ 0 then
          some (_fmt_date (digitsVal y) (digitsVal mo) 1)
        else none
      else none
    | [] => none
  match numeric with
  | some v => some v
  | none =>
    let monthFirst :=
      let tok := l0.takeWhile Char.isAlpha
      if tok.length = 0 then none
      else
        match skipWs1 (l0.dropWhile Char.isAlpha) with
        | none => none
        | some l1 =>
          let y := l1.takeWhile Char.isDigit
          if y.length = 4 ∧ (l1.dropWhile Char.isDigit).dropWhile isPySpace = [] then
            match _month_to_num ⟨tok⟩ with
            | some mo =>
              if digitsVal y ≠ 0 then some (_fmt_date (digitsVal y) mo 1) else none
            | none => none
          else none
    match monthFirst with
    | some v => some v
    | none =>
      let y := l0.takeWhile Char.isDigit
      if y.length = 4 then
        match skipWs1 (l0.dropWhile Char.isDigit) with
        | none => none
        | some l1 =>
          let tok := l1.takeWhile Char.isAlpha
          if tok.length ≠ 0 ∧ (l1.dropWhile Char.isAlpha).dropWhile isPySpace = [] then
            match _month_to_num ⟨tok⟩ with
            | some mo =>
              if digitsVal y ≠ 0 then some (_fmt_date (digitsVal y) mo 1) else none
            | none => none
          else none
      else none

/-- `_try_year_only`: `^\s*(\d{4})\s*$` with guard `if y:`. -/
def _try_year_only (s : String) : Option String :=
  let l0 := s.data.dropWhile isPySpace
  let y := l0.takeWhile Char.isDigit
  if y.length = 4 ∧ (l0.dropWhile Char.isDigit).dropWhile isPySpace = [] ∧
      digitsVal y ≠ 0 then
    some (_fmt_date (digitsVal y) 1 1)
  else none

/-- `re.search(r"(19|20)\d{2}", ·)`: scan left to right for the first
4-character window that is `19` or `20` followed by two digits, and return
its numeric value. -/
def yearSearch : List Char → Option Nat
  | [] => none
  | a :: rest =>
    match rest with
    | b :: c :: d :: _ =>
      if ((a = '1' ∧ b = '9') ∨ (a = '2' ∧ b = '0')) ∧ c.isDigit ∧ d.isDigit then
        some (digitsVal [a, b, c, d])
      else yearSearch rest
    | _ => none

/-- `normalize_date_string` from `backend/utils.py`: empty input maps to
the empty string, otherwise the recognizers run on the stripped input in
the fixed order ISO, month-day-year, year-month, year-only, and the first
hit wins; failing all of them, a year is sniffed anywhere in the string;
failing that too, the empty string is returned. -/
def normalize_date_string (raw : String) : String :=
  if raw = "" then ""
  else
    let s := pyStrip raw
    match _try_iso s with
    | some v => v
    | none =>
      match _try_month_day_year s with
      | some v => v
      | none =>
        match _try_year_month s with
        | some v => v
        | none =>
          match _try_year_only s with
          | some v => v
          | none =>
            match yearSearch s.data with
            | some y => _fmt_date y 1 1
            | none => ""

/-- The apostrophe character (written by code point to keep the source
free of quote-literal noise). -/
def squote : Char := Char.ofNat 39

/-- The double-quote character. -/
def dquote : Char := Char.ofNat 34

/-- Python `str.replace(old, new)` for single-character arguments: replace
every occurrence. -/
def replaceChar (s : String) (a b : Char) : String :=
  ⟨s.data.map (fun c => if c = a then b else c)⟩

/-- JSON inter-token whitespace. -/
def isJsonWs (c : Char) : Bool := c = ' ' || c = '\t' || c = '\n' || c = '\r'

/-- Hexadecimal digit test, for the \\uXXXX string escapes. -/
def isHexDigit (c : Char) : Bool :=
  c.isDigit || ('a' ≤ c && c ≤ 'f') || ('A' ≤ c && c ≤ 'F')

/-- Value of a hexadecimal digit. -/
def hexVal (c : Char) : Nat :=
  if c.isDigit then c.toNat - 48
  else if 'a' ≤ c && c ≤ 'f' then c.toNat - 87
  else c.toNat - 55

/-- A parsed JSON value, at the grain the founders pipeline consults:
strings carry their decoded code points (`json.loads` can produce lone
surrogates from \\uXXXX escapes, which a Lean `Char` cannot hold, so code
points are plain numbers), numbers carry whether the literal's mantissa
is all zeros (the one attribute Python's truthiness filter consults; the
exact float value is floating-point territory and out of scope), arrays
and objects carry their members. -/
inductive JVal where
  | jstr (units : List Nat)
  | jnum (isZero : Bool)
  | jbool (b : Bool)
  | jnull
  | jarr (elems : List JVal)
  | jobj (pairs : List (List Nat × JVal))

/-- The code points of an (escape-free) Lean string, as a JSON string
value. -/
def strUnits (s : String) : List Nat := s.data.map Char.toNat

/-- A JSON string value holding the text of a Lean string. -/
def jstrOf (s : String) : JVal := .jstr (strUnits s)

/-- Python truthiness of a parsed JSON value, as consulted by the list
comprehension `[f for f in founders if f]`: the empty string, a zero
number, False, None, the empty list and the empty dict are falsy,
everything else (including NaN and the infinities) is truthy.  Duplicate
object keys collapse in Python's dict, but a dict built from at least one
pair is never empty, so emptiness of the pair list is faithful. -/
def jTruthy : JVal → Bool
  | .jstr u => !u.isEmpty
  | .jnum z => !z
  | .jbool b => b
  | .jnull => false
  | .jarr l => !l.isEmpty
  | .jobj l => !l.isEmpty

/-- Body of a JSON string literal, after the opening quote: ordinary
characters and the JSON escapes are decoded into code points up to the
closing quote; an unescaped control character, an unknown escape, a
malformed \\uXXXX or a missing closing quote is a failure, exactly as in
json.loads (strict mode, the default).  A \\uXXXX high surrogate directly
followed by a \\uXXXX low surrogate combines into one code point; a lone
surrogate stays as its raw code.  Every iteration consumes at least one
character, so fuel `length + 1` always suffices. -/
def jStrBody : Nat → List Char → List Nat → Option (List Nat × List Char)
  | 0, _, _ => none
  | fuel + 1, l, acc =>
    match l with
    | [] => none
    | c :: rest =>
      if c = dquote then some (acc.reverse, rest)
      else if c = '\\' then
        match rest with
        | [] => none
        | e :: rest2 =>
          if e = dquote then jStrBody fuel rest2 (34 :: acc)
          else if e = '\\' then jStrBody fuel rest2 (92 :: acc)
          else if e = '/' then jStrBody fuel rest2 (47 :: acc)
          else if e = 'b' then jStrBody fuel rest2 (8 :: acc)
          else if e = 'f' then jStrBody fuel rest2 (12 :: acc)
          else if e = 'n' then jStrBody fuel rest2 (10 :: acc)
          else if e = 'r' then jStrBody fuel rest2 (13 :: acc)
          else if e = 't' then jStrBody fuel rest2 (9 :: acc)
          else if e = 'u' then
            match rest2 with
            | h1 :: h2 :: h3 :: h4 :: rest3 =>
              if isHexDigit h1 && isHexDigit h2 && isHexDigit h3 &&
                  isHexDigit h4 then
                let u := ((hexVal h1 * 16 + hexVal h2) * 16 + hexVal h3) * 16 +
                  hexVal h4
                if 0xD800 ≤ u && u ≤ 0xDBFF then
                  match rest3 with
                  | b1 :: b2 :: g1 :: g2 :: g3 :: g4 :: rest4 =>
                    if b1 = '\\' && b2 = 'u' && isHexDigit g1 &&
                        isHexDigit g2 && isHexDigit g3 && isHexDigit g4 then
                      let u2 := ((hexVal g1 * 16 + hexVal g2) * 16 +
                        hexVal g3) * 16 + hexVal g4
                      if 0xDC00 ≤ u2 && u2 ≤ 0xDFFF then
                        jStrBody fuel rest4
                          ((0x10000 + (u - 0xD800) * 0x400 + (u2 - 0xDC00)) ::
                            acc)
                      else jStrBody fuel rest3 (u :: acc)
                    else jStrBody fuel rest3 (u :: acc)
                  | _ => jStrBody fuel rest3 (u :: acc)
                else jStrBody fuel rest3 (u :: acc)
              else none
            | _ => none
          else none
      else if c.toNat < 32 then none
      else jStrBody fuel rest (c.toNat :: acc)

/-- Optional exponent of a JSON number, and the end of the number; the
exponent never changes whether the mantissa is zero.  A bare exponent
letter without digits fails here, where json.loads ends the number before
the letter and then rejects the stray letter at the delimiter check: no
valid document can continue with a letter after a number, so the overall
verdict is the same. -/
def jExpTail (isZero : Bool) (l : List Char) : Option (Bool × List Char) :=
  match l with
  | c :: rest =>
    if c = 'e' || c = 'E' then
      let r2 := match rest with
        | s :: r3 => if s = '+' || s = '-' then r3 else s :: r3
        | [] => []
      if (r2.takeWhile Char.isDigit).length = 0 then none
      else some (isZero, r2.dropWhile Char.isDigit)
    else some (isZero, c :: rest)
  | [] => some (isZero, [])

/-- A JSON number after its optional minus sign: `0` or a nonzero-led
digit run, an optional fraction, an optional exponent — the json.loads
grammar.  A leading zero ends the integer part at once, so `01` leaves a
stray digit for the caller to reject, as in Python.  The returned flag
says whether the mantissa (integer and fraction digits) is all zeros. -/
def jNumTail (l : List Char) : Option (Bool × List Char) :=
  match l with
  | [] => none
  | c :: rest =>
    if c.isDigit then
      let intZero := c = '0'
      let r1 := if c = '0' then rest else rest.dropWhile Char.isDigit
      match r1 with
      | '.' :: r2 =>
        if (r2.takeWhile Char.isDigit).length = 0 then none
        else
          jExpTail (intZero && (r2.takeWhile Char.isDigit).all (fun d => d = '0'))
            (r2.dropWhile Char.isDigit)
      | _ => jExpTail intZero r1
    else none

/-- Elements of a non-empty JSON array: one value (parsed by `pv`), then
either `]` to finish or `,` and the next element, with whitespace allowed
around the delimiters.  Each loop iteration consumes at least one
character, so fuel `length + 1` always suffices. -/
def jParseItemsGo (pv : List Char → Option (JVal × List Char)) :
    Nat → List Char → List JVal → Option (List JVal × List Char)
  | 0, _, _ => none
  | fuel + 1, l, acc =>
    match pv l with
    | none => none
    | some (v, rem) =>
      match rem.dropWhile isJsonWs with
      | c :: rem2 =>
        if c = ']' then some (acc ++ [v], rem2)
        else if c = ',' then jParseItemsGo pv fuel rem2 (acc ++ [v])
        else none
      | [] => none

/-- Members of a non-empty JSON object: a string key, `:`, a value
(parsed by `pv`), then `}` or `,` and the next member, with whitespace
allowed between the tokens; a non-string key is a failure, as in
json.loads.  Fuel as in the array loop. -/
def jParsePairsGo (pv : List Char → Option (JVal × List Char)) :
    Nat → List Char → List (List Nat × JVal) →
    Option (List (List Nat × JVal) × List Char)
  | 0, _, _ => none
  | fuel + 1, l, acc =>
    match l.dropWhile isJsonWs with
    | [] => none
    | c :: rest =>
      if c = dquote then
        match jStrBody (rest.length + 1) rest [] with
        | none => none
        | some (key, rem) =>
          match rem.dropWhile isJsonWs with
          | [] => none
          | c2 :: rem2 =>
            if c2 = ':' then
              match pv rem2 with
              | none => none
              | some (v, rem3) =>
                match rem3.dropWhile isJsonWs with
                | [] => none
                | c3 :: rem4 =>
                  if c3 = '}' then some (acc ++ [(key, v)], rem4)
                  else if c3 = ',' then
                    jParsePairsGo pv fuel rem4 (acc ++ [(key, v)])
                  else none
            else none
      else none

/-- One JSON value, the scanner behind `json.loads`: leading whitespace
is skipped, then a string, array, object, one of the constants (including
the non-standard NaN, Infinity and -Infinity that Python accepts by
default) or a number is read.  The fuel bounds the nesting depth; every
recursive call sits behind a consumed opening bracket, so `length + 1`
units always suffice. -/
def jParseVal : Nat → List Char → Option (JVal × List Char)
  | 0, _ => none
  | fuel + 1, l =>
    match l.dropWhile isJsonWs with
    | [] => none
    | c :: rest =>
      if c = dquote then
        match jStrBody (rest.length + 1) rest [] with
        | some (units, rem) => some (.jstr units, rem)
        | none => none
      else if c = '[' then
        match rest.dropWhile isJsonWs with
        | c2 :: rem2 =>
          if c2 = ']' then some (.jarr [], rem2)
          else
            match jParseItemsGo (jParseVal fuel) ((c2 :: rem2).length + 1)
                (c2 :: rem2) [] with
            | some (elems, rem) => some (.jarr elems, rem)
            | none => none
        | [] => none
      else if c = '{' then
        match rest.dropWhile isJsonWs with
        | c2 :: rem2 =>
          if c2 = '}' then some (.jobj [], rem2)
          else
            match jParsePairsGo (jParseVal fuel) ((c2 :: rem2).length + 1)
                (c2 :: rem2) [] with
            | some (pairs, rem) => some (.jobj pairs, rem)
            | none => none
        | [] => none
      else if c = 't' then
        match rest with
        | 'r' :: 'u' :: 'e' :: rem => some (.jbool true, rem)
        | _ => none
      else if c = 'f' then
        match rest with
        | 'a' :: 'l' :: 's' :: 'e' :: rem => some (.jbool false, rem)
        | _ => none
      else if c = 'n' then
        match rest with
        | 'u' :: 'l' :: 'l' :: rem => some (.jnull, rem)
        | _ => none
      else if c = 'N' then
        match rest with
        | 'a' :: 'N' :: rem => some (.jnum false, rem)
        | _ => none
      else if c = 'I' then
        match rest with
        | 'n' :: 'f' :: 'i' :: 'n' :: 'i' :: 't' :: 'y' :: rem =>
          some (.jnum false, rem)
        | _ => none
      else if c = '-' then
        match rest with
        | 'I' :: 'n' :: 'f' :: 'i' :: 'n' :: 'i' :: 't' :: 'y' :: rem =>
          some (.jnum false, rem)
        | _ =>
          match jNumTail rest with
          | some (z, rem) => some (.jnum z, rem)
          | none => none
      else
        match jNumTail (c :: rest) with
        | some (z, rem) => some (.jnum z, rem)
        | none => none

/-- `json.loads`: skip leading whitespace, read one value, and require
nothing but whitespace after it. -/
def jsonParse (s : String) : Option JVal :=
  match jParseVal (s.data.length + 1) s.data with
  | some (v, rest) => if rest.dropWhile isJsonWs = [] then some v else none
  | none => none

/-- Python `str.split(sep)` for a single-character separator: every
occurrence cuts, empty pieces are kept. -/
def splitOnChar (sep : Char) : List Char → List (List Char)
  | [] => [[]]
  | c :: rest =>
    if c = sep then [] :: splitOnChar sep rest
    else
      match splitOnChar sep rest with
      | [] => [[c]]
      | b :: bs => (c :: b) :: bs

/-- The founders field as the oracle may return it: either already a list
of strings or a single string needing coercion. -/
inductive FoundersField
  | ofList (l : List String)
  | ofStr (s : String)
  deriving DecidableEq, Repr

/-- The founders-coercion step of `_coerce_record`, at the level of the
Python values involved: a bracket-shaped string (after stripping) is
handed to json.loads with single quotes normalized to double quotes; a
successful parse of a list keeps its elements — non-string elements
included — while a parse failure (or a non-list result) keeps the whole
string as a one-element list; a non-bracket-shaped string is split on
commas, each piece trimmed and the empty pieces dropped; the final
comprehension drops falsy elements in every case. -/
def coerceFounders (f : FoundersField) : List JVal :=
  let founders :=
    match f with
    | .ofList l => l.map jstrOf
    | .ofStr s =>
      let text := pyStrip s
      if text.data.head? = some '[' ∧ text.data.getLast? = some ']' then
        match jsonParse (replaceChar text squote dquote) with
        | some (JVal.jarr elems) => elems
        | some _ => [jstrOf text]
        | none => [jstrOf text]
      else
        ((splitOnChar ',' text.data).map (fun p => jstrOf (pyStrip ⟨p⟩))).filter
          jTruthy
  founders.filter jTruthy

/-- A cleaned record: the shape the merger works on. -/
structure Rec where
  company_name : String
  founding_date : String
  founders : List String
  deriving DecidableEq, Repr

/-- A raw oracle record before coercion. -/
structure RawItem where
  company_name : String
  founding_date : String
  founders : FoundersField
  deriving DecidableEq, Repr

/-- A coerced record at the Python-value level: the founders list can in
general carry non-string JSON values, which the code keeps.  The cleaned
records `Rec` the merger is specified over are the ones whose founders
are all strings. -/
structure CoercedRec where
  company_name : String
  founding_date : String
  founders : List JVal

/-- `_coerce_record` from `backend/agent_workflow.py`. -/
def _coerce_record (d : RawItem) : CoercedRec :=
  { company_name := pyStrip d.company_name
    founding_date := normalize_date_string (pyStrip d.founding_date)
    founders := coerceFounders d.founders }

/-- The founders merge loop of `dedupe_records`: `cur` is the group's
accumulated founders list and `seen` carries the casefolded names already
present (the Python `set` is modelled as a list consulted only through
membership). -/
def addFounders : List String → List String → List String → List String
  | cur, _, [] => cur
  | cur, seen, f :: fs =>
    if seen.contains (casefold f) then addFounders cur seen fs
    else addFounders (cur ++ [f]) (seen ++ [casefold f]) fs

/-- Merge the incoming founders into the existing group list, skipping
names whose casefold is already present. -/
def mergeFounders (existing incoming : List String) : List String :=
  addFounders existing (existing.map casefold) incoming

/-- The founding-date resolution of `dedupe_records`: lexicographic
minimum when both sides are non-empty, the non-empty side when exactly one
is, otherwise keep the existing value. -/
def mergeDate (existing date : String) : String :=
  if existing ≠ "" ∧ date ≠ "" then pyMinStr existing date
  else if date ≠ "" ∧ existing = "" then date
  else existing

/-- First value stored under `k` in an insertion-ordered association list
(the model of the Python `dict` lookup). -/
def alistFind (m : List (String × Rec)) (k : String) : Option Rec :=
  match m with
  | [] => none
  | (k2, v) :: rest => if k2 = k then some v else alistFind rest k

/-- Replace the value stored under `k`, keeping its position (the model of
assignment to an existing `dict` key). -/
def alistSet (m : List (String × Rec)) (k : String) (v : Rec) : List (String × Rec) :=
  match m with
  | [] => [(k, v)]
  | (k2, v2) :: rest =>
    if k2 = k then (k2, v) :: rest else (k2, v2) :: alistSet rest k v

/-- One iteration of the loop of `dedupe_records`: drop whitespace-only
names, key by the casefolded trimmed name, insert a fresh group or merge
into the existing one. -/
def dedupeStep (m : List (String × Rec)) (r : Rec) : List (String × Rec) :=
  let name := pyStrip r.company_name
  if name = "" then m
  else
    let key := casefold name
    let founders := r.founders.filter (fun f => f != "")
    let date := pyStrip r.founding_date
    match alistFind m key with
    | none => m ++ [(key, ⟨name, date, founders⟩)]
    | some v =>
      alistSet m key
        ⟨v.company_name, mergeDate v.founding_date date,
          mergeFounders v.founders founders⟩

/-- The comparator of the final `out.sort(key=casefold(company_name))`:
Python's stable sort by the casefolded name. -/
def recLe (a b : Rec) : Bool := strLe (casefold a.company_name) (casefold b.company_name)

/-- `dedupe_records` from `backend/utils.py`: fold the records into the
insertion-ordered dictionary, then sort the values by casefolded company
name (Python's `list.sort` is stable, as is `List.mergeSort`). -/
def dedupe_records (records : List Rec) : List Rec :=
  ((records.foldl dedupeStep []).map Prod.snd).mergeSort recLe

/-- Numeric value of a two-character digit group. -/
def twoVal (a b : Char) : Nat := 10 * (a.toNat - 48) + (b.toNat - 48)

/-- The canonical-form check of the spec: exactly ten characters shaped
like a four-digit year, a dash, two month digits, a dash, two day digits,
with the month value in [1, 12] and the day value in [1, 28]. -/
def isCanonShape (s : String) : Bool :=
  match s.data with
  | [y1, y2, y3, y4, s1, m1, m2, s2, d1, d2] =>
    y1.isDigit && y2.isDigit && y3.isDigit && y4.isDigit &&
    s1 == '-' && s2 == '-' && m1.isDigit && m2.isDigit &&
    d1.isDigit && d2.isDigit &&
    decide (1 ≤ twoVal m1 m2) && decide (twoVal m1 m2 ≤ 12) &&
    decide (1 ≤ twoVal d1 d2) && decide (twoVal d1 d2 ≤ 28)
  | _ => false

/-- Join a list of paragraphs with the blank-line separator used by the
spec's round-trip property. -/
def joinParas : List String → List Char
  | [] => []
  | [p] => p.data
  | p :: rest => p.data ++ '\n' :: '\n' :: joinParas rest

/-- The record fold of `dedupe_records`, before the final sort. -/
def buildMap (recs : List Rec) : List (String × Rec) :=
  recs.foldl dedupeStep []

/-- The union the spec describes: walk the incoming names in order and
append each one whose casefold is not already present. -/
def ciUnion (cur incoming : List String) : List String :=
  incoming.foldl (fun cur f =>
    if (cur.map casefold).contains (casefold f) then cur else cur ++ [f]) cur

/-- Field invariants of every stored entry: key is the casefolded name,
name and date are stripped, name non-empty, founders non-empty strings. -/
def entryClean (e : String × Rec) : Prop :=
  e.1 = casefold e.2.company_name ∧
  pyStrip e.2.company_name = e.2.company_name ∧
  e.2.company_name ≠ "" ∧
  pyStrip e.2.founding_date = e.2.founding_date ∧
  ∀ f ∈ e.2.founders, f ≠ ""

/-- The stripped dates contributed to group `k`, in record order (records
with an empty trimmed name contribute nothing). -/
def groupDates (recs : List Rec) (k : String) : List String :=
  recs.filterMap (fun r =>
    if pyStrip r.company_name ≠ "" ∧ casefold (pyStrip r.company_name) = k then
      some (pyStrip r.founding_date)
    else none)

/-- Lexicographically smallest non-empty entry, or the empty string when
every entry is empty. -/
def lexMinNonempty (ds : List String) : String :=
  match ds.filter (fun d => d != "") with
  | [] => ""
  | x :: xs => xs.foldl pyMinStr x

theorem takeWhile_length_lt {p : Char → Bool} :
    ∀ (w : List Char), (∃ c ∈ w, p c = false) → (w.takeWhile p).length < w.length := by
  intro w
  induction w with
  | nil => rintro ⟨c, hc, _⟩; cases hc
  | cons a as ih =>
    rintro ⟨c, hc, hpc⟩
    by_cases hpa : p a = true
    · simp only [List.takeWhile_cons, hpa, List.length_cons]
      have : c ∈ as := by
        rcases List.mem_cons.mp hc with h | h
        · exact absurd hpa (by rw [h] at hpc; simp [hpc])
        · exact h
      exact Nat.succ_lt_succ (ih ⟨c, this, hpc⟩)
    · simp only [List.takeWhile_cons, Bool.not_eq_true] at hpa ⊢
      simp [hpa]

theorem sepRemainder_length {l r : List Char} (h : sepRemainder l = some r) :
    r.length < l.length := by
  match l with
  | [] => simp [sepRemainder] at h
  | c :: rest =>
    simp only [sepRemainder] at h
    by_cases hc : c = '\n'
    · simp only [hc, if_true] at h
      by_cases hrun : (rest.takeWhile isPySpace).contains '\n'
      · simp only [hrun, if_true, Option.some.injEq] at h
        have hlen : ((rest.takeWhile isPySpace).reverse.takeWhile
            (fun c => c != '\n')).length < (rest.takeWhile isPySpace).length := by
          have hmem : '\n' ∈ (rest.takeWhile isPySpace).reverse := by
            rw [List.mem_reverse]
            have := List.contains_iff_exists_mem_beq.mp hrun
            rcases this with ⟨a, ha, hab⟩
            rwa [show '\n' = a from by simpa using hab]
          have := takeWhile_length_lt (p := fun c => c != '\n')
            (rest.takeWhile isPySpace).reverse ⟨'\n', hmem, by simp⟩
          simpa using this
        have htw : (rest.takeWhile isPySpace).length ≤ rest.length :=
          (List.takeWhile_sublist isPySpace).length_le
        rw [← h]
        simp only [List.length_append, afterLastNewline, List.length_reverse,
          List.length_drop, List.length_cons]
        omega
      · rw [if_neg hrun] at h
        cases h
    · rw [if_neg hc] at h
      cases h

theorem splitReGo_succ (fuel : Nat) (l : List Char) :
    splitReGo (fuel + 1) l =
      match sepRemainder l with
      | some r => [] :: splitReGo fuel r
      | none =>
        match l with
        | [] => [[]]
        | c :: rest =>
          match splitReGo fuel rest with
          | [] => [[c]]
          | b :: bs => (c :: b) :: bs := rfl

theorem splitReGo_fuel :
    ∀ (fuel : Nat) (l : List Char), l.length < fuel → splitReGo fuel l = splitRe l := by
  intro fuel
  induction fuel using Nat.strong_induction_on with
  | _ fuel ih =>
    intro l hlt
    match fuel, hlt with
    | fuel + 1, hlt =>
      show splitReGo (fuel + 1) l = splitReGo (l.length + 1) l
      cases hsep : sepRemainder l with
      | some r =>
        have hr := sepRemainder_length hsep
        rw [splitReGo_succ, splitReGo_succ, hsep]
        dsimp only
        rw [ih fuel (Nat.lt_succ_self _) r (by omega),
          ih l.length hlt r (by omega)]
      | none =>
        cases l with
        | nil =>
          rw [splitReGo_succ, hsep]
          rfl
        | cons c rest =>
          rw [splitReGo_succ, splitReGo_succ, hsep]
          dsimp only
          rw [ih fuel (Nat.lt_succ_self _) rest (by simp at hlt; omega),
            ih (c :: rest).length hlt rest (by simp)]

/-- The defining equation of the splitter, with the fuel eliminated. -/
theorem splitRe_eq (l : List Char) :
    splitRe l =
      match sepRemainder l with
      | some r => [] :: splitRe r
      | none =>
        match l with
        | [] => [[]]
        | c :: rest =>
          match splitRe rest with
          | [] => [[c]]
          | b :: bs => (c :: b) :: bs := by
  show splitReGo (l.length + 1) l = _
  rw [splitReGo_succ]
  cases hsep : sepRemainder l with
  | some r =>
    have hr := sepRemainder_length hsep
    dsimp only
    rw [splitReGo_fuel l.length r (by omega)]
  | none =>
    cases l with
    | nil => rfl
    | cons c rest =>
      dsimp only
      rw [splitReGo_fuel (c :: rest).length rest (by simp)]

example : split_paragraphs "A\n\nB\n\nC" = ["A", "B", "C"] := by decide

example : split_paragraphs "  \n\n  " = [] := by decide

example : split_paragraphs "A \n b\n  x\n\nB" = ["A \n b\n  x", "B"] := by decide

example : normalize_date_string "March 5, 1990" = "1990-03-05" := by decide

example : normalize_date_string "1990 March" = "1990-03-01" := by decide

example : normalize_date_string "founded sometime in 2005 apparently" = "2005-01-01" := by decide

example : normalize_date_string "" = "" := by decide

example : normalize_date_string "unknown" = "" := by decide

example : normalize_date_string "circa then" = "" := by decide

example : normalize_date_string "1990" = "1990-01-01" := by decide

example : normalize_date_string "1990-03-05" = "1990-03-05" := by decide

example : normalize_date_string "1990/3/5" = "1990-03-05" := by decide

example : normalize_date_string " 5 Mar 1990 " = "1990-03-05" := by decide

example : normalize_date_string "Sept 2001" = "2001-09-01" := by decide

example : normalize_date_string "1990-00-31" = "1990-01-28" := by decide

example :
    coerceFounders (.ofStr ("[" ++ String.singleton squote ++ "Alice" ++
      String.singleton squote ++ ", " ++ String.singleton squote ++ "Bob" ++
      String.singleton squote ++ "]")) = [jstrOf "Alice", jstrOf "Bob"] := rfl

example : coerceFounders (.ofStr "Alice, Bob") =
    [jstrOf "Alice", jstrOf "Bob"] := rfl

example : coerceFounders (.ofStr "[Alice, Bob]") =
    [jstrOf "[Alice, Bob]"] := rfl

example : coerceFounders (.ofStr "[\"Alice\", \"Bob\"]") =
    [jstrOf "Alice", jstrOf "Bob"] := rfl

example : coerceFounders (.ofStr "[\"A\\tB\"]") = [JVal.jstr [65, 9, 66]] := rfl

example : coerceFounders (.ofStr "[1, 2]") =
    [JVal.jnum false, JVal.jnum false] := rfl

example : coerceFounders (.ofStr "[null]") = [] := rfl

example : coerceFounders (.ofStr "[0, \"x\", 0.00, true, false, \x7b\x7d]") =
    [jstrOf "x", JVal.jbool true] := rfl

example : jsonParse "[\"\\ud83d\\ude00\"]" =
    some (.jarr [.jstr [128512]]) := rfl

example : jsonParse "[\"\\ud800\"]" = some (.jarr [.jstr [55296]]) := rfl

example : jsonParse " [1e5, -0.5, \x7b\"a\": [NaN]\x7d, Infinity] " =
    some (.jarr [.jnum false, .jnum false,
      .jobj [([97], .jarr [.jnum false])], .jnum false]) := rfl

example : jsonParse "[01]" = none := rfl

example : jsonParse "[1,]" = none := rfl

example : jsonParse "[\"a\" \"b\"]" = none := rfl

example : jsonParse "[\"\\q\"]" = none := rfl

example :
    ((([⟨"Acme Inc.", "1990-01-01", ["Jane"]⟩,
        ⟨"acme inc.", "1990-03-05", ["jane", "Bob"]⟩] : List Rec).foldl
      dedupeStep []).map Prod.snd) =
    [⟨"Acme Inc.", "1990-01-01", ["Jane", "Bob"]⟩] := by decide

example :
    dedupe_records [⟨"Acme Inc.", "1990-01-01", ["Jane"]⟩,
        ⟨"acme inc.", "1990-03-05", ["jane", "Bob"]⟩] =
    [⟨"Acme Inc.", "1990-01-01", ["Jane", "Bob"]⟩] := by
  show (List.mergeSort _ recLe) = _
  rw [show (([⟨"Acme Inc.", "1990-01-01", ["Jane"]⟩,
        ⟨"acme inc.", "1990-03-05", ["jane", "Bob"]⟩] : List Rec).foldl
      dedupeStep []).map Prod.snd =
      [⟨"Acme Inc.", "1990-01-01", ["Jane", "Bob"]⟩] from by decide]
  exact List.mergeSort_singleton _

theorem uint32_le_toNat {a b : UInt32} : a ≤ b ↔ a.toNat ≤ b.toNat := by
  rw [UInt32.le_def, BitVec.le_def]
  rfl

theorem uint32_lt_toNat {a b : UInt32} : a < b ↔ a.toNat < b.toNat := by
  rw [UInt32.lt_def, BitVec.lt_def]
  rfl

theorem char_lt_toNat {a b : Char} : a < b ↔ a.toNat < b.toNat := by
  rw [Char.lt_iff_val_lt_val]
  exact uint32_lt_toNat

theorem char_eq_of_toNat {a b : Char} (h : a.toNat = b.toNat) : a = b := by
  apply Char.ext
  have hb : a.val.toBitVec = b.val.toBitVec := BitVec.toNat_injective h
  calc a.val = UInt32.mk a.val.toBitVec := (UInt32.mk_toBitVec_eq a.val).symm
    _ = UInt32.mk b.val.toBitVec := by rw [hb]
    _ = b.val := UInt32.mk_toBitVec_eq b.val

theorem digit_toNat {c : Char} (h : c.isDigit = true) :
    48 ≤ c.toNat ∧ c.toNat ≤ 57 := by
  simp only [Char.isDigit, Bool.and_eq_true, decide_eq_true_eq] at h
  obtain ⟨h1, h2⟩ := h
  exact ⟨uint32_le_toNat.mp h1, uint32_le_toNat.mp h2⟩

theorem char_trichotomy (a b : Char) : a < b ∨ a = b ∨ b < a := by
  rcases Nat.lt_trichotomy a.toNat b.toNat with h | h | h
  · exact Or.inl (char_lt_toNat.mpr h)
  · exact Or.inr (Or.inl (char_eq_of_toNat h))
  · exact Or.inr (Or.inr (char_lt_toNat.mpr h))

theorem lexLt_trans : ∀ {a b c : List Char},
    lexLt a b = true → lexLt b c = true → lexLt a c = true := by
  intro a
  induction a with
  | nil =>
    intro b c hab hbc
    match b, c with
    | [], _ => simp [lexLt] at hab
    | _ :: _, [] => simp [lexLt] at hbc
    | _ :: _, _ :: _ => simp [lexLt]
  | cons x xs ih =>
    intro b c hab hbc
    match b, c with
    | [], _ => simp [lexLt] at hab
    | _ :: _, [] => simp [lexLt] at hbc
    | y :: ys, z :: zs =>
      simp only [lexLt, Bool.or_eq_true, Bool.and_eq_true, decide_eq_true_eq] at hab hbc ⊢
      rcases hab with hxy | ⟨hxy, hab⟩
      · rcases hbc with hyz | ⟨hyz, hbc⟩
        · exact Or.inl (Char.lt_trans hxy hyz)
        · subst hyz; exact Or.inl hxy
      · subst hxy
        rcases hbc with hyz | ⟨hyz, hbc⟩
        · exact Or.inl hyz
        · exact Or.inr ⟨hyz, ih hab hbc⟩

theorem lexLt_asymm : ∀ {a b : List Char},
    lexLt a b = true → lexLt b a = false := by
  intro a
  induction a with
  | nil =>
    intro b hab
    match b with
    | [] => simp [lexLt] at hab
    | _ :: _ => simp [lexLt]
  | cons x xs ih =>
    intro b hab
    match b with
    | [] => simp [lexLt] at hab
    | y :: ys =>
      simp only [lexLt, Bool.or_eq_true, Bool.and_eq_true, decide_eq_true_eq,
        Bool.or_eq_false_iff, Bool.and_eq_false_iff, decide_eq_false_iff_not] at hab ⊢
      rcases hab with hxy | ⟨hxy, hab⟩
      · exact ⟨Char.lt_asymm hxy, Or.inl (fun h => Char.ne_of_lt hxy h.symm)⟩
      · subst hxy
        exact ⟨fun h => absurd rfl (Char.ne_of_lt h), Or.inr (ih hab)⟩

theorem lexLt_total : ∀ {a b : List Char},
    lexLt a b = false → lexLt b a = false → a = b := by
  intro a
  induction a with
  | nil =>
    intro b hab _
    match b with
    | [] => rfl
    | _ :: _ => simp [lexLt] at hab
  | cons x xs ih =>
    intro b hab hba
    match b with
    | [] => simp [lexLt] at hba
    | y :: ys =>
      simp only [lexLt, Bool.or_eq_false_iff, Bool.and_eq_false_iff,
        decide_eq_false_iff_not] at hab hba
      obtain ⟨hxy, hab⟩ := hab
      obtain ⟨hyx, hba⟩ := hba
      rcases char_trichotomy x y with h | h | h
      · exact absurd h hxy
      · subst h
        rcases hab with hne | hab
        · exact absurd rfl hne
        · rcases hba with hne | hba
          · exact absurd rfl hne
          · rw [ih hab hba]
      · exact absurd h hyx

theorem strLe_trans {a b c : String} (hab : strLe a b = true) (hbc : strLe b c = true) :
    strLe a c = true := by
  simp only [strLe, Bool.not_eq_true'] at hab hbc ⊢
  by_contra hca
  rw [Bool.not_eq_false] at hca
  rcases hbc2 : lexLt b.data c.data with _ | _
  · have hbceq := lexLt_total hbc2 hbc
    rw [← hbceq] at hca
    rw [hca] at hab
    exact Bool.noConfusion hab
  · rcases hab2 : lexLt a.data b.data with _ | _
    · have habeq := lexLt_total hab2 hab
      rw [habeq] at hca
      rw [hca] at hbc
      exact Bool.noConfusion hbc
    · have hac := lexLt_trans hab2 hbc2
      rw [lexLt_asymm hac] at hca
      exact Bool.noConfusion hca

theorem strLe_total (a b : String) : strLe a b || strLe b a := by
  simp only [strLe, Bool.or_eq_true, Bool.not_eq_true']
  rcases h : lexLt b.data a.data with _ | _
  · exact Or.inl rfl
  · exact Or.inr (lexLt_asymm h)

theorem digitChar_facts (d : Nat) :
    (digitChar d).isDigit = true ∧ (digitChar d).toNat - 48 = d % 10 ∧
    isPySpace (digitChar d) = false ∧ isDateSep (digitChar d) = false ∧
    Char.isAlpha (digitChar d) = false := by
  have h : d % 10 < 10 := Nat.mod_lt _ (by omega)
  unfold digitChar
  set k := d % 10 with hk
  interval_cases k <;>
    exact ⟨by decide, by decide, by decide, by decide, by decide⟩

theorem natDigitsGo_fuel : ∀ (fuel n : Nat), n < fuel → natDigitsGo fuel n = natDigits n := by
  intro fuel
  induction fuel using Nat.strong_induction_on with
  | _ fuel ih =>
    intro n hlt
    match fuel, hlt with
    | fuel + 1, hlt =>
      show natDigitsGo (fuel + 1) n = natDigitsGo (n + 1) n
      by_cases h10 : n < 10
      · simp only [natDigitsGo, if_pos h10]
      · simp only [natDigitsGo, if_neg h10]
        have hdiv : n / 10 < n := Nat.div_lt_self (by omega) (by omega)
        rw [ih fuel (Nat.lt_succ_self _) (n / 10) (by omega),
          ih n hlt (n / 10) hdiv]

theorem natDigits_eq (n : Nat) :
    natDigits n =
      if n < 10 then [digitChar n]
      else natDigits (n / 10) ++ [digitChar (n % 10)] := by
  show natDigitsGo (n + 1) n = _
  by_cases h10 : n < 10
  · simp only [natDigitsGo, if_pos h10]
  · simp only [natDigitsGo, if_neg h10]
    have hdiv : n / 10 < n := Nat.div_lt_self (by omega) (by omega)
    rw [natDigitsGo_fuel n (n / 10) hdiv]

theorem natDigits_ne_nil (n : Nat) : natDigits n ≠ [] := by
  rw [natDigits_eq]
  by_cases h10 : n < 10
  · simp [h10]
  · simp [h10]

theorem natDigits_all_digit : ∀ (n : Nat), ∀ c ∈ natDigits n, c.isDigit = true := by
  intro n
  induction n using Nat.strong_induction_on with
  | _ n ih =>
    intro c hc
    rw [natDigits_eq] at hc
    by_cases h10 : n < 10
    · rw [if_pos h10] at hc
      rcases List.mem_singleton.mp hc with rfl
      exact (digitChar_facts n).1
    · rw [if_neg h10] at hc
      rcases List.mem_append.mp hc with h | h
      · exact ih (n / 10) (Nat.div_lt_self (by omega) (by omega)) c h
      · rcases List.mem_singleton.mp h with rfl
        exact (digitChar_facts (n % 10)).1

theorem natDigits_length_le : ∀ (k n : Nat), 1 ≤ k → n < 10 ^ k →
    (natDigits n).length ≤ k := by
  intro k
  induction k with
  | zero => intro n hk; omega
  | succ k ih =>
    intro n _ hn
    rw [natDigits_eq]
    by_cases h10 : n < 10
    · rw [if_pos h10]
      simp
    · rw [if_neg h10]
      have hk1 : 1 ≤ k := by
        by_contra hk0
        push_neg at hk0
        interval_cases k
        simp at hn
        omega
      have hdiv : n / 10 < 10 ^ k := by
        rw [Nat.div_lt_iff_lt_mul (by omega)]
        calc n < 10 ^ (k + 1) := hn
          _ = 10 ^ k * 10 := by rw [Nat.pow_succ]
      have := ih (n / 10) hk1 hdiv
      simp only [List.length_append, List.length_cons, List.length_nil]
      omega

theorem digitsVal_cons (c : Char) (ds : List Char) :
    digitsVal (c :: ds) =
      (c :: ds).foldl (fun acc c => 10 * acc + (c.toNat - 48)) 0 := rfl

theorem digitsVal_go (ds : List Char) :
    ∀ (a : Nat), ds.foldl (fun acc c => 10 * acc + (c.toNat - 48)) a =
      a * 10 ^ ds.length + digitsVal ds := by
  induction ds with
  | nil => intro a; simp [digitsVal]
  | cons c rest ih =>
    intro a
    show rest.foldl _ (10 * a + (c.toNat - 48)) =
      a * 10 ^ (c :: rest).length + digitsVal (c :: rest)
    rw [ih (10 * a + (c.toNat - 48))]
    have : digitsVal (c :: rest) = (c.toNat - 48) * 10 ^ rest.length + digitsVal rest := by
      show rest.foldl _ (10 * 0 + (c.toNat - 48)) = _
      rw [ih (10 * 0 + (c.toNat - 48))]
      ring_nf
    rw [this]
    simp only [List.length_cons, Nat.pow_succ]
    ring

theorem digitsVal_append_one (ds : List Char) (c : Char) :
    digitsVal (ds ++ [c]) = 10 * digitsVal ds + (c.toNat - 48) := by
  show (ds ++ [c]).foldl _ 0 = _
  rw [List.foldl_append]
  rfl

theorem digitsVal_lt (ds : List Char) (hd : ∀ c ∈ ds, c.isDigit = true) :
    digitsVal ds < 10 ^ ds.length := by
  induction ds using List.reverseRecOn with
  | nil => simp [digitsVal]
  | append_singleton ds c ih =>
    rw [digitsVal_append_one]
    have hc : c.isDigit = true := hd c (by simp)
    have := (digit_toNat hc).2
    have hds := ih (fun x hx => hd x (by simp [hx]))
    simp only [List.length_append, List.length_cons, List.length_nil, Nat.pow_succ]
    omega

theorem digitsVal_natDigits : ∀ (n : Nat), digitsVal (natDigits n) = n := by
  intro n
  induction n using Nat.strong_induction_on with
  | _ n ih =>
    rw [natDigits_eq]
    by_cases h10 : n < 10
    · rw [if_pos h10]
      show (10 * 0 + ((digitChar n).toNat - 48)) = n
      rw [Nat.mul_zero, Nat.zero_add, (digitChar_facts n).2.1, Nat.mod_eq_of_lt h10]
    · rw [if_neg h10]
      rw [digitsVal_append_one, ih (n / 10) (Nat.div_lt_self (by omega) (by omega)),
        (digitChar_facts (n % 10)).2.1, Nat.mod_mod_of_dvd _ (by omega)]
      omega

theorem digitsVal_replicate_zero (j : Nat) (ds : List Char) :
    digitsVal (List.replicate j '0' ++ ds) = digitsVal ds := by
  induction j with
  | zero => simp
  | succ j ih =>
    show digitsVal ('0' :: (List.replicate j '0' ++ ds)) = digitsVal ds
    rw [← ih]
    rfl

theorem digitsVal_padNum (w n : Nat) : digitsVal (padNum w n) = n := by
  rw [padNum, digitsVal_replicate_zero, digitsVal_natDigits]

theorem padNum_length (w n : Nat) (h : (natDigits n).length ≤ w) :
    (padNum w n).length = w := by
  simp only [padNum, List.length_append, List.length_replicate]
  omega

theorem padNum_all_digit (w n : Nat) : ∀ c ∈ padNum w n, c.isDigit = true := by
  intro c hc
  rcases List.mem_append.mp hc with h | h
  · rw [List.eq_of_mem_replicate h]
    decide
  · exact natDigits_all_digit n c h

theorem clamp_mem (k x : Nat) (hk : 1 ≤ k) :
    1 ≤ max 1 (min k (if x = 0 then 1 else x)) ∧
    max 1 (min k (if x = 0 then 1 else x)) ≤ k :=
  ⟨Nat.le_max_left _ _, Nat.max_le.mpr ⟨hk, Nat.min_le_left _ _⟩⟩

theorem list_len_two {l : List Char} (h : l.length = 2) : ∃ a b, l = [a, b] := by
  match l with
  | [a, b] => exact ⟨a, b, rfl⟩
  | [] | [_] | _ :: _ :: _ :: _ => simp at h

theorem list_len_four {l : List Char} (h : l.length = 4) :
    ∃ a b c d, l = [a, b, c, d] := by
  match l with
  | [a, b, c, d] => exact ⟨a, b, c, d, rfl⟩
  | [] | [_] | [_, _] | [_, _, _] | _ :: _ :: _ :: _ :: _ :: _ => simp at h

theorem fmt_date_parts (y m d : Nat) (hy : y ≤ 9999) :
    (_fmt_date y m d).data =
      padNum 4 y ++ '-' :: padNum 2 (max 1 (min 12 (if m = 0 then 1 else m))) ++
        '-' :: padNum 2 (max 1 (min 28 (if d = 0 then 1 else d))) ∧
    (padNum 4 y).length = 4 ∧
    (padNum 2 (max 1 (min 12 (if m = 0 then 1 else m)))).length = 2 ∧
    (padNum 2 (max 1 (min 28 (if d = 0 then 1 else d)))).length = 2 := by
  refine ⟨rfl, ?_, ?_, ?_⟩
  · exact padNum_length 4 y (natDigits_length_le 4 y (by omega) (by omega))
  · refine padNum_length 2 _ (natDigits_length_le 2 _ (by omega) ?_)
    have := (clamp_mem 12 m (by omega)).2
    omega
  · refine padNum_length 2 _ (natDigits_length_le 2 _ (by omega) ?_)
    have := (clamp_mem 28 d (by omega)).2
    omega

theorem twoVal_digitsVal (a b : Char) : twoVal a b = digitsVal [a, b] := by
  show twoVal a b = 10 * (10 * 0 + (a.toNat - 48)) + (b.toNat - 48)
  simp [twoVal]

theorem fmt_date_shape (y m d : Nat) (hy : y ≤ 9999) :
    isCanonShape (_fmt_date y m d) = true := by
  obtain ⟨hdata, hY, hM, hD⟩ := fmt_date_parts y m d hy
  obtain ⟨y1, y2, y3, y4, hYe⟩ := list_len_four hY
  obtain ⟨m1, m2, hMe⟩ := list_len_two hM
  obtain ⟨d1, d2, hDe⟩ := list_len_two hD
  have hMv : twoVal m1 m2 = max 1 (min 12 (if m = 0 then 1 else m)) := by
    rw [twoVal_digitsVal, ← hMe, digitsVal_padNum]
  have hDv : twoVal d1 d2 = max 1 (min 28 (if d = 0 then 1 else d)) := by
    rw [twoVal_digitsVal, ← hDe, digitsVal_padNum]
  have hMc := clamp_mem 12 m (by omega)
  have hDc := clamp_mem 28 d (by omega)
  have hYd := padNum_all_digit 4 y
  have hMd := padNum_all_digit 2 (max 1 (min 12 (if m = 0 then 1 else m)))
  have hDd := padNum_all_digit 2 (max 1 (min 28 (if d = 0 then 1 else d)))
  rw [hYe] at hdata hYd
  rw [hMe] at hdata hMd
  rw [hDe] at hdata hDd
  unfold isCanonShape
  rw [hdata]
  show (y1.isDigit && y2.isDigit && y3.isDigit && y4.isDigit &&
    ('-' == '-') && ('-' == '-') && m1.isDigit && m2.isDigit &&
    d1.isDigit && d2.isDigit &&
    decide (1 ≤ twoVal m1 m2) && decide (twoVal m1 m2 ≤ 12) &&
    decide (1 ≤ twoVal d1 d2) && decide (twoVal d1 d2 ≤ 28)) = true
  simp only [Bool.and_eq_true, beq_self_eq_true, decide_eq_true_eq]
  refine ⟨⟨⟨⟨⟨⟨⟨⟨⟨⟨⟨⟨⟨?_, ?_⟩, ?_⟩, ?_⟩, trivial⟩, trivial⟩, ?_⟩, ?_⟩, ?_⟩, ?_⟩,
    ?_⟩, ?_⟩, ?_⟩, ?_⟩
  · exact hYd y1 (by simp)
  · exact hYd y2 (by simp)
  · exact hYd y3 (by simp)
  · exact hYd y4 (by simp)
  · exact hMd m1 (by simp)
  · exact hMd m2 (by simp)
  · exact hDd d1 (by simp)
  · exact hDd d2 (by simp)
  · omega
  · omega
  · omega
  · omega

theorem digitsVal_le_9999 {ds : List Char} (hlen : ds.length = 4)
    (hd : ∀ c ∈ ds, c.isDigit = true) : digitsVal ds ≤ 9999 := by
  have := digitsVal_lt ds hd
  rw [hlen] at this
  omega

theorem takeWhile_digits (l : List Char) :
    ∀ c ∈ l.takeWhile Char.isDigit, c.isDigit = true :=
  fun _ hc => List.mem_takeWhile_imp hc

theorem _try_iso_fmt {s : String} {v : String} (h : _try_iso s = some v) :
    ∃ y m d, v = _fmt_date y m d ∧ 1 ≤ y ∧ y ≤ 9999 := by
  unfold _try_iso at h
  dsimp only at h
  split at h
  next c1 l1 heq1 =>
    split at h
    next hcond1 =>
      split at h
      next c2 l2 heq2 =>
        split at h
        next hcond2 =>
          split at h
          next hcond3 =>
            injection h with h
            refine ⟨_, _, _, h.symm, ?_, ?_⟩
            · omega
            · refine digitsVal_le_9999 hcond1.2 ?_
              exact takeWhile_digits _
          next => exact absurd h (by simp)
        next => exact absurd h (by simp)
      next => exact absurd h (by simp)
    next => exact absurd h (by simp)
  next => exact absurd h (by simp)

theorem _try_month_day_year_fmt {s : String} {v : String}
    (h : _try_month_day_year s = some v) :
    ∃ y m d, v = _fmt_date y m d ∧ 1 ≤ y ∧ y ≤ 9999 := by
  unfold _try_month_day_year at h
  dsimp only at h
  split at h
  next v2 heq =>
    injection h with h
    subst h
    split at heq
    next => exact absurd heq (by simp)
    next =>
      split at heq
      next => exact absurd heq (by simp)
      next l1 heq1 =>
        split at heq
        next hlen =>
          split at heq
          next => exact absurd heq (by simp)
          next l2 heq2 =>
            split at heq
            next hcond =>
              split at heq
              next mo heq3 =>
                split at heq
                next hguard =>
                  injection heq with heq
                  refine ⟨_, _, _, heq.symm, by omega, ?_⟩
                  exact digitsVal_le_9999 hcond.1 (takeWhile_digits _)
                next => exact absurd heq (by simp)
              next => exact absurd heq (by simp)
            next => exact absurd heq (by simp)
        next => exact absurd heq (by simp)
  next heq =>
    split at h
    next hlen =>
      split at h
      next => exact absurd h (by simp)
      next l1 heq1 =>
        split at h
        next => exact absurd h (by simp)
        next =>
          split at h
          next => exact absurd h (by simp)
          next l2 heq2 =>
            split at h
            next hcond =>
              split at h
              next mo heq3 =>
                split at h
                next hguard =>
                  injection h with h
                  refine ⟨_, _, _, h.symm, by omega, ?_⟩
                  exact digitsVal_le_9999 hcond.1 (takeWhile_digits _)
                next => exact absurd h (by simp)
              next => exact absurd h (by simp)
            next => exact absurd h (by simp)
    next => exact absurd h (by simp)

theorem _try_year_month_fmt {s : String} {v : String}
    (h : _try_year_month s = some v) :
    ∃ y m d, v = _fmt_date y m d ∧ 1 ≤ y ∧ y ≤ 9999 := by
  unfold _try_year_month at h
  dsimp only at h
  split at h
  next v2 heq =>
    injection h with h
    subst h
    split at heq
    next c1 l1 heq1 =>
      split at heq
      next hcond1 =>
        split at heq
        next hcond2 =>
          injection heq with heq
          refine ⟨_, _, _, heq.symm, by omega, ?_⟩
          exact digitsVal_le_9999 hcond1.2 (takeWhile_digits _)
        next => exact absurd heq (by simp)
      next => exact absurd heq (by simp)
    next => exact absurd heq (by simp)
  next heq0 =>
    split at h
    next v2 heq =>
      injection h with h
      subst h
      split at heq
      next => exact absurd heq (by simp)
      next =>
        split at heq
        next => exact absurd heq (by simp)
        next l1 heq1 =>
          split at heq
          next hcond =>
            split at heq
            next mo heq2 =>
              split at heq
              next hy =>
                injection heq with heq
                refine ⟨_, _, _, heq.symm, by omega, ?_⟩
                exact digitsVal_le_9999 hcond.1 (takeWhile_digits _)
              next => exact absurd heq (by simp)
            next => exact absurd heq (by simp)
          next => exact absurd heq (by simp)
    next heq5 =>
      split at h
      next hylen =>
        split at h
        next => exact absurd h (by simp)
        next l1 heq1 =>
          split at h
          next hcond =>
            split at h
            next mo heq2 =>
              split at h
              next hy =>
                injection h with h
                refine ⟨_, _, _, h.symm, by omega, ?_⟩
                exact digitsVal_le_9999 hylen (takeWhile_digits _)
              next => exact absurd h (by simp)
            next => exact absurd h (by simp)
          next => exact absurd h (by simp)
      next => exact absurd h (by simp)

theorem _try_year_only_fmt {s : String} {v : String}
    (h : _try_year_only s = some v) :
    ∃ y m d, v = _fmt_date y m d ∧ 1 ≤ y ∧ y ≤ 9999 := by
  unfold _try_year_only at h
  dsimp only at h
  split at h
  next hcond =>
    injection h with h
    refine ⟨_, _, _, h.symm, by omega, ?_⟩
    exact digitsVal_le_9999 hcond.1 (takeWhile_digits _)
  next => exact absurd h (by simp)

theorem yearSearch_bounds : ∀ {l : List Char} {y : Nat},
    yearSearch l = some y → 1 ≤ y ∧ y ≤ 9999 := by
  intro l
  induction l with
  | nil => intro y h; exact absurd h (by simp [yearSearch])
  | cons a rest ih =>
    intro y h
    cases rest with
    | nil => exact absurd h (by simp [yearSearch])
    | cons b rest2 =>
      cases rest2 with
      | nil => exact absurd h (by simp [yearSearch])
      | cons c rest3 =>
        cases rest3 with
        | nil => exact absurd h (by simp [yearSearch])
        | cons d rest4 =>
          rw [show yearSearch (a :: b :: c :: d :: rest4) =
              (if ((a = '1' ∧ b = '9') ∨ (a = '2' ∧ b = '0')) ∧
                  c.isDigit = true ∧ d.isDigit = true then
                some (digitsVal [a, b, c, d])
              else yearSearch (b :: c :: d :: rest4)) from rfl] at h
          by_cases hcond : ((a = '1' ∧ b = '9') ∨ (a = '2' ∧ b = '0')) ∧
              c.isDigit = true ∧ d.isDigit = true
          · rw [if_pos hcond] at h
            injection h with h
            obtain ⟨hab, hc, hd⟩ := hcond
            have hcn := digit_toNat hc
            have hdn := digit_toNat hd
            rcases hab with ⟨ha, hb⟩ | ⟨ha, hb⟩
            · subst ha; subst hb
              rw [← h,
                show (['1', '9', c, d] : List Char) = ['1', '9', c] ++ [d] from rfl,
                digitsVal_append_one,
                show (['1', '9', c] : List Char) = ['1', '9'] ++ [c] from rfl,
                digitsVal_append_one,
                show digitsVal ['1', '9'] = 19 from by decide]
              omega
            · subst ha; subst hb
              rw [← h,
                show (['2', '0', c, d] : List Char) = ['2', '0', c] ++ [d] from rfl,
                digitsVal_append_one,
                show (['2', '0', c] : List Char) = ['2', '0'] ++ [c] from rfl,
                digitsVal_append_one,
                show digitsVal ['2', '0'] = 20 from by decide]
              omega
          · rw [if_neg hcond] at h
            exact ih h

theorem normalize_fmt {s : String} (h : normalize_date_string s ≠ "") :
    ∃ y m d, normalize_date_string s = _fmt_date y m d ∧ 1 ≤ y ∧ y ≤ 9999 := by
  by_cases hs : s = ""
  · subst hs; exact absurd rfl h
  · unfold normalize_date_string at h ⊢
    rw [if_neg hs] at h ⊢
    dsimp only at h ⊢
    cases h1 : _try_iso (pyStrip s) with
    | some v => exact _try_iso_fmt h1
    | none =>
      cases h2 : _try_month_day_year (pyStrip s) with
      | some v => exact _try_month_day_year_fmt h2
      | none =>
        cases h3 : _try_year_month (pyStrip s) with
        | some v => exact _try_year_month_fmt h3
        | none =>
          cases h4 : _try_year_only (pyStrip s) with
          | some v => exact _try_year_only_fmt h4
          | none =>
            cases h5 : yearSearch (pyStrip s).data with
            | some yv =>
              obtain ⟨hy1, hy2⟩ := yearSearch_bounds h5
              exact ⟨yv, 1, 1, rfl, hy1, hy2⟩
            | none =>
              rw [h1, h2, h3, h4, h5] at h
              exact absurd rfl h

theorem normalize_shape {s : String} (h : normalize_date_string s ≠ "") :
    isCanonShape (normalize_date_string s) = true := by
  obtain ⟨y, m, d, hv, _, hy2⟩ := normalize_fmt h
  rw [hv]
  exact fmt_date_shape y m d hy2

/-- C5: whenever the date normalizer succeeds (returns a non-empty
result), the output is a ten-character dash-separated date with four year
digits, two month digits and two day digits, the month value in [1, 12]
and the day value in [1, 28]; the formatter clamps month and day into
those ranges, a zero (absent) component defaulting to 1. -/
theorem C5_canonical_shape :
    (∀ s : String, normalize_date_string s ≠ "" →
      isCanonShape (normalize_date_string s) = true) ∧
    (∀ y m d : Nat, y ≤ 9999 → isCanonShape (_fmt_date y m d) = true) ∧
    _fmt_date 1990 0 0 = "1990-01-01" ∧
    _fmt_date 1990 13 31 = "1990-12-28" := by
  refine ⟨fun s h => normalize_shape h, fun y m d hy => fmt_date_shape y m d hy,
    by decide, by decide⟩

theorem C5_canonical_shape_witness :
    isCanonShape (normalize_date_string "March 5, 1990") = true ∧
    isCanonShape (_fmt_date 2024 2 30) = true :=
  ⟨C5_canonical_shape.1 "March 5, 1990" (by decide),
   C5_canonical_shape.2.1 2024 2 30 (by decide)⟩

/-- C6: the date normalizer is a total function (its embedding is a plain
Lean function, mirroring that no input raises in the source): every output
is either the empty string (unknown date) or a canonical date, and the
three unparseable examples all return the empty string. -/
theorem C6_total_safety :
    (∀ s : String, normalize_date_string s = "" ∨
      isCanonShape (normalize_date_string s) = true) ∧
    normalize_date_string "" = "" ∧
    normalize_date_string "unknown" = "" ∧
    normalize_date_string "circa then" = "" := by
  refine ⟨fun s => ?_, by decide, by decide, by decide⟩
  by_cases h : normalize_date_string s = ""
  · exact Or.inl h
  · exact Or.inr (normalize_shape h)

/-- C4: the recognizers are tried in the fixed order whole-string
ISO-like, month-name forms, year-month, year-only, then the fallback scan
anywhere in the string for a 4-digit year starting 19 or 20; the first
success wins, and the claim's three concrete examples hold. -/
theorem C4_priority_order :
    (∀ s v, _try_iso (pyStrip s) = some v → normalize_date_string s = v) ∧
    (∀ s v, _try_iso (pyStrip s) = none →
      _try_month_day_year (pyStrip s) = some v → normalize_date_string s = v) ∧
    (∀ s v, _try_iso (pyStrip s) = none → _try_month_day_year (pyStrip s) = none →
      _try_year_month (pyStrip s) = some v → normalize_date_string s = v) ∧
    (∀ s v, _try_iso (pyStrip s) = none → _try_month_day_year (pyStrip s) = none →
      _try_year_month (pyStrip s) = none → _try_year_only (pyStrip s) = some v →
      normalize_date_string s = v) ∧
    (∀ s y, _try_iso (pyStrip s) = none → _try_month_day_year (pyStrip s) = none →
      _try_year_month (pyStrip s) = none → _try_year_only (pyStrip s) = none →
      yearSearch (pyStrip s).data = some y →
      normalize_date_string s = _fmt_date y 1 1) ∧
    (∀ s, _try_iso (pyStrip s) = none → _try_month_day_year (pyStrip s) = none →
      _try_year_month (pyStrip s) = none → _try_year_only (pyStrip s) = none →
      yearSearch (pyStrip s).data = none → normalize_date_string s = "") ∧
    normalize_date_string "March 5, 1990" = "1990-03-05" ∧
    normalize_date_string "1990 March" = "1990-03-01" ∧
    normalize_date_string "founded sometime in 2005 apparently" = "2005-01-01" := by
  refine ⟨?_, ?_, ?_, ?_, ?_, ?_, by decide, by decide, by decide⟩
  · intro s v h1
    by_cases hs : s = ""
    · subst hs
      rw [show _try_iso (pyStrip "") = none from by decide] at h1
      exact absurd h1 (by simp)
    · unfold normalize_date_string
      rw [if_neg hs]
      dsimp only
      rw [h1]
  · intro s v h1 h2
    by_cases hs : s = ""
    · subst hs
      rw [show _try_month_day_year (pyStrip "") = none from by decide] at h2
      exact absurd h2 (by simp)
    · unfold normalize_date_string
      rw [if_neg hs]
      dsimp only
      rw [h1, h2]
  · intro s v h1 h2 h3
    by_cases hs : s = ""
    · subst hs
      rw [show _try_year_month (pyStrip "") = none from by decide] at h3
      exact absurd h3 (by simp)
    · unfold normalize_date_string
      rw [if_neg hs]
      dsimp only
      rw [h1, h2, h3]
  · intro s v h1 h2 h3 h4
    by_cases hs : s = ""
    · subst hs
      rw [show _try_year_only (pyStrip "") = none from by decide] at h4
      exact absurd h4 (by simp)
    · unfold normalize_date_string
      rw [if_neg hs]
      dsimp only
      rw [h1, h2, h3, h4]
  · intro s y h1 h2 h3 h4 h5
    by_cases hs : s = ""
    · subst hs
      rw [show yearSearch (pyStrip "").data = none from by decide] at h5
      exact absurd h5 (by simp)
    · unfold normalize_date_string
      rw [if_neg hs]
      dsimp only
      rw [h1, h2, h3, h4, h5]
  · intro s h1 h2 h3 h4 h5
    by_cases hs : s = ""
    · subst hs; rfl
    · unfold normalize_date_string
      rw [if_neg hs]
      dsimp only
      rw [h1, h2, h3, h4, h5]

theorem C4_priority_order_witness :
    normalize_date_string "March 5, 1990" = "1990-03-05" ∧
    normalize_date_string "founded sometime in 2005 apparently" = "2005-01-01" :=
  ⟨C4_priority_order.2.1 "March 5, 1990" "1990-03-05" (by decide) (by decide),
   C4_priority_order.2.2.2.2.1 "founded sometime in 2005 apparently" 2005
     (by decide) (by decide) (by decide) (by decide) (by decide)⟩

theorem dropWhile_eq_self_of_all {p : Char → Bool} {l : List Char}
    (h : ∀ c ∈ l, p c = false) : l.dropWhile p = l := by
  cases l with
  | nil => rfl
  | cons c rest =>
    rw [List.dropWhile_cons_of_neg]
    rw [h c (by simp)]
    simp

theorem pyStrip_eq_self_of_all {s : String} (h : ∀ c ∈ s.data, isPySpace c = false) :
    pyStrip s = s := by
  unfold pyStrip
  rw [dropWhile_eq_self_of_all h,
    dropWhile_eq_self_of_all (fun c hc => h c (List.mem_reverse.mp hc)),
    List.reverse_reverse]

theorem digit_not_ws {c : Char} (h : c.isDigit = true) : isPySpace c = false := by
  obtain ⟨h1, h2⟩ := digit_toNat h
  simp only [isPySpace, Bool.or_eq_false_iff, decide_eq_false_iff_not]
  refine ⟨⟨⟨⟨⟨?_, ?_⟩, ?_⟩, ?_⟩, ?_⟩, ?_⟩ <;>
    · intro he
      subst he
      exact absurd h1 (by decide)

theorem digit_not_digitSep {c : Char} (h : c.isDigit = true) : isDateSep c = false := by
  obtain ⟨h1, h2⟩ := digit_toNat h
  simp only [isDateSep, Bool.or_eq_false_iff, decide_eq_false_iff_not]
  constructor <;>
    · intro he
      subst he
      exact absurd h1 (by decide)

theorem fmt_date_ws_free (y m d : Nat) (hy : y ≤ 9999) :
    ∀ c ∈ (_fmt_date y m d).data, isPySpace c = false := by
  intro c hc
  obtain ⟨hdata, _, _, _⟩ := fmt_date_parts y m d hy
  rw [hdata] at hc
  rcases List.mem_append.mp hc with h | h
  · rcases List.mem_append.mp h with h2 | h2
    · exact digit_not_ws (padNum_all_digit _ _ c h2)
    · rcases List.mem_cons.mp h2 with rfl | h3
      · decide
      · exact digit_not_ws (padNum_all_digit _ _ c h3)
  · rcases List.mem_cons.mp h with rfl | h2
    · decide
    · exact digit_not_ws (padNum_all_digit _ _ c h2)

theorem clamp_idem (k x : Nat) (hk : 1 ≤ k) :
    max 1 (min k
      (if (max 1 (min k (if x = 0 then 1 else x))) = 0 then 1
       else max 1 (min k (if x = 0 then 1 else x)))) =
    max 1 (min k (if x = 0 then 1 else x)) := by
  have hv := clamp_mem k x hk
  rw [if_neg (by omega)]
  omega

theorem fmt_ne_empty (y m d : Nat) (hy : y ≤ 9999) : _fmt_date y m d ≠ "" := by
  obtain ⟨hdata, hY, _, _⟩ := fmt_date_parts y m d hy
  intro he
  have : (_fmt_date y m d).data = [] := by rw [he]
  rw [hdata] at this
  obtain ⟨y1, y2, y3, y4, hYe⟩ := list_len_four hY
  rw [hYe] at this
  exact absurd this (by simp)

theorem fmt_clamp_idem (y m d : Nat) :
    _fmt_date y (max 1 (min 12 (if m = 0 then 1 else m)))
      (max 1 (min 28 (if d = 0 then 1 else d))) = _fmt_date y m d := by
  unfold _fmt_date
  dsimp only
  rw [clamp_idem 12 m (by omega), clamp_idem 28 d (by omega)]

theorem _try_iso_roundtrip (y m d : Nat) (h1 : 1 ≤ y) (h2 : y ≤ 9999) :
    _try_iso (_fmt_date y m d) = some (_fmt_date y m d) := by
  obtain ⟨hdata, hY, hM, hD⟩ := fmt_date_parts y m d h2
  obtain ⟨y1, y2, y3, y4, hYe⟩ := list_len_four hY
  obtain ⟨m1, m2, hMe⟩ := list_len_two hM
  obtain ⟨d1, d2, hDe⟩ := list_len_two hD
  have hYd := padNum_all_digit 4 y
  have hMd := padNum_all_digit 2 (max 1 (min 12 (if m = 0 then 1 else m)))
  have hDd := padNum_all_digit 2 (max 1 (min 28 (if d = 0 then 1 else d)))
  rw [hYe] at hYd
  rw [hMe] at hMd
  rw [hDe] at hDd
  have hy1 := hYd y1 (by simp)
  have hy2d := hYd y2 (by simp)
  have hy3 := hYd y3 (by simp)
  have hy4 := hYd y4 (by simp)
  have hm1 := hMd m1 (by simp)
  have hm2 := hMd m2 (by simp)
  have hd1 := hDd d1 (by simp)
  have hd2 := hDd d2 (by simp)
  have hyv : digitsVal [y1, y2, y3, y4] = y := by
    rw [← hYe]; exact digitsVal_padNum 4 y
  have hmv : digitsVal [m1, m2] = max 1 (min 12 (if m = 0 then 1 else m)) := by
    rw [← hMe]; exact digitsVal_padNum 2 _
  have hdv : digitsVal [d1, d2] = max 1 (min 28 (if d = 0 then 1 else d)) := by
    rw [← hDe]; exact digitsVal_padNum 2 _
  have hdl : (_fmt_date y m d).data =
      y1 :: y2 :: y3 :: y4 :: '-' :: m1 :: m2 :: '-' :: d1 :: d2 :: [] := by
    rw [hdata, hYe, hMe, hDe]
    rfl
  unfold _try_iso
  dsimp only
  rw [hdl]
  rw [List.dropWhile_cons_of_neg (by rw [digit_not_ws hy1]; simp)]
  rw [show List.takeWhile Char.isDigit
      (y1 :: y2 :: y3 :: y4 :: '-' :: m1 :: m2 :: '-' :: d1 :: d2 :: []) =
      [y1, y2, y3, y4] from by
    rw [List.takeWhile_cons_of_pos hy1, List.takeWhile_cons_of_pos hy2d,
      List.takeWhile_cons_of_pos hy3, List.takeWhile_cons_of_pos hy4,
      List.takeWhile_cons_of_neg (by decide)]]
  rw [show List.dropWhile Char.isDigit
      (y1 :: y2 :: y3 :: y4 :: '-' :: m1 :: m2 :: '-' :: d1 :: d2 :: []) =
      '-' :: m1 :: m2 :: '-' :: d1 :: d2 :: [] from by
    rw [List.dropWhile_cons_of_pos hy1, List.dropWhile_cons_of_pos hy2d,
      List.dropWhile_cons_of_pos hy3, List.dropWhile_cons_of_pos hy4,
      List.dropWhile_cons_of_neg (by decide)]]
  dsimp only
  rw [if_pos (⟨by decide, by simp⟩ : isDateSep '-' = true ∧
    ([y1, y2, y3, y4] : List Char).length = 4)]
  rw [show List.takeWhile Char.isDigit (m1 :: m2 :: '-' :: d1 :: d2 :: []) =
      [m1, m2] from by
    rw [List.takeWhile_cons_of_pos hm1, List.takeWhile_cons_of_pos hm2,
      List.takeWhile_cons_of_neg (by decide)]]
  rw [show List.dropWhile Char.isDigit (m1 :: m2 :: '-' :: d1 :: d2 :: []) =
      '-' :: d1 :: d2 :: [] from by
    rw [List.dropWhile_cons_of_pos hm1, List.dropWhile_cons_of_pos hm2,
      List.dropWhile_cons_of_neg (by decide)]]
  dsimp only
  rw [if_pos (⟨by decide, by simp, by simp⟩ : isDateSep '-' = true ∧
    1 ≤ ([m1, m2] : List Char).length ∧ ([m1, m2] : List Char).length ≤ 2)]
  rw [show List.takeWhile Char.isDigit (d1 :: d2 :: []) = [d1, d2] from by
    rw [List.takeWhile_cons_of_pos hd1, List.takeWhile_cons_of_pos hd2]
    rfl]
  rw [show List.dropWhile Char.isDigit (d1 :: d2 :: []) = [] from by
    rw [List.dropWhile_cons_of_pos hd1, List.dropWhile_cons_of_pos hd2]
    rfl]
  rw [if_pos (⟨by simp, by simp, rfl, by rw [hyv]; omega⟩ :
    1 ≤ ([d1, d2] : List Char).length ∧ ([d1, d2] : List Char).length ≤ 2 ∧
    List.dropWhile isPySpace ([] : List Char) = [] ∧
    digitsVal [y1, y2, y3, y4] ≠ 0)]
  rw [hyv, hmv, hdv, fmt_clamp_idem]

theorem normalize_fmt_roundtrip (y m d : Nat) (h1 : 1 ≤ y) (h2 : y ≤ 9999) :
    normalize_date_string (_fmt_date y m d) = _fmt_date y m d := by
  unfold normalize_date_string
  rw [if_neg (fmt_ne_empty y m d h2)]
  dsimp only
  rw [pyStrip_eq_self_of_all (fmt_date_ws_free y m d h2),
    _try_iso_roundtrip y m d h1 h2]

/-- C10: date normalization is idempotent: a successful result re-parses
through the ISO-like recognizer to itself, and an empty result stays
empty. -/
theorem C10_normalize_idempotent (s : String) :
    normalize_date_string (normalize_date_string s) = normalize_date_string s := by
  by_cases h : normalize_date_string s = ""
  · rw [h]
    rfl
  · obtain ⟨y, m, d, hv, hy1, hy2⟩ := normalize_fmt h
    rw [hv]
    exact normalize_fmt_roundtrip y m d hy1 hy2

theorem head?_dropWhile_false {p : Char → Bool} :
    ∀ (l : List Char) (x : Char), (l.dropWhile p).head? = some x → p x = false := by
  intro l
  induction l with
  | nil => intro x hx; cases hx
  | cons c cs ih =>
    intro x hx
    by_cases hc : p c = true
    · rw [List.dropWhile_cons_of_pos hc] at hx
      exact ih x hx
    · rw [List.dropWhile_cons_of_neg hc] at hx
      injection hx with hx
      subst hx
      exact Bool.not_eq_true _ |>.mp hc

theorem dropWhile_head_false {p : Char → Bool} {l : List Char}
    (h : ∀ x, l.head? = some x → p x = false) : l.dropWhile p = l := by
  cases l with
  | nil => rfl
  | cons c cs =>
    rw [List.dropWhile_cons_of_neg]
    rw [h c rfl]
    simp

theorem getLast?_dropWhile {p : Char → Bool} :
    ∀ (l : List Char), l.dropWhile p ≠ [] → (l.dropWhile p).getLast? = l.getLast? := by
  intro l
  induction l with
  | nil => intro h; exact absurd rfl h
  | cons c cs ih =>
    intro h
    by_cases hc : p c = true
    · rw [List.dropWhile_cons_of_pos hc] at h ⊢
      cases hcs : cs with
      | nil => rw [hcs] at h; exact absurd rfl h
      | cons c2 cs2 =>
        rw [← hcs, ih h, hcs, List.getLast?_cons_cons]
    · rw [List.dropWhile_cons_of_neg hc]

theorem pyStrip_idem (s : String) : pyStrip (pyStrip s) = pyStrip s := by
  have hB : (pyStrip s).data =
      ((s.data.dropWhile isPySpace).reverse.dropWhile isPySpace).reverse := rfl
  unfold pyStrip
  dsimp only
  by_cases hBnil : (s.data.dropWhile isPySpace).reverse.dropWhile isPySpace = []
  · rw [hBnil]
    rfl
  · have h1 : ((s.data.dropWhile isPySpace).reverse.dropWhile
        isPySpace).reverse.dropWhile isPySpace =
        ((s.data.dropWhile isPySpace).reverse.dropWhile isPySpace).reverse := by
      apply dropWhile_head_false
      intro x hx
      rw [List.head?_reverse] at hx
      rw [getLast?_dropWhile _ hBnil, List.getLast?_reverse] at hx
      exact head?_dropWhile_false s.data x hx
    rw [h1, List.reverse_reverse]
    have h2 : ((s.data.dropWhile isPySpace).reverse.dropWhile
        isPySpace).dropWhile isPySpace =
        (s.data.dropWhile isPySpace).reverse.dropWhile isPySpace := by
      apply dropWhile_head_false
      intro x hx
      exact head?_dropWhile_false _ x hx
    rw [h2]

theorem dropWhile_length_head {p : Char → Bool} {l : List Char}
    (h : (l.dropWhile p).length = l.length) :
    ∀ x, l.head? = some x → p x = false := by
  cases l with
  | nil => intro x hx; cases hx
  | cons c cs =>
    intro x hx
    injection hx with hx
    by_cases hc : p c = true
    · rw [List.dropWhile_cons_of_pos hc] at h
      have := (List.dropWhile_sublist (l := cs) p).length_le
      simp only [List.length_cons] at h
      omega
    · rw [← hx]
      exact Bool.not_eq_true _ |>.mp hc

theorem strip_eq_self_ends {p : String} (hs : pyStrip p = p) :
    (∀ x, p.data.head? = some x → isPySpace x = false) ∧
    (∀ x, p.data.getLast? = some x → isPySpace x = false) := by
  have hd : (((p.data.dropWhile isPySpace).reverse.dropWhile
      isPySpace).reverse) = p.data := congrArg String.data hs
  have hlenA : (p.data.dropWhile isPySpace).length = p.data.length := by
    have l1 := congrArg List.length hd
    have l2 := (List.dropWhile_sublist (l := p.data) isPySpace).length_le
    have l3 := (List.dropWhile_sublist
      (l := (p.data.dropWhile isPySpace).reverse) isPySpace).length_le
    simp only [List.length_reverse] at l1 l3
    omega
  have hA : p.data.dropWhile isPySpace = p.data :=
    dropWhile_head_false (dropWhile_length_head hlenA)
  have hlenB : ((p.data.dropWhile isPySpace).reverse.dropWhile isPySpace).length =
      (p.data.dropWhile isPySpace).reverse.length := by
    have l1 := congrArg List.length hd
    simp only [List.length_reverse] at l1 ⊢
    omega
  constructor
  · exact dropWhile_length_head hlenA
  · intro x hx
    refine dropWhile_length_head hlenB x ?_
    rw [List.head?_reverse, hA]
    exact hx

theorem splitRe_ne_nil (l : List Char) : splitRe l ≠ [] := by
  rw [splitRe_eq]
  cases hsep : sepRemainder l with
  | some r => simp
  | none =>
    cases l with
    | nil => simp
    | cons c rest =>
      cases hsr : splitRe rest with
      | nil => simp [hsr]
      | cons b bs => simp [hsr]

theorem splitRe_singleton_inv {c : Char} {a2 : List Char}
    (h : splitRe (c :: a2) = [c :: a2]) :
    sepRemainder (c :: a2) = none ∧ splitRe a2 = [a2] := by
  rw [splitRe_eq] at h
  cases hsep : sepRemainder (c :: a2) with
  | some r =>
    rw [hsep] at h
    dsimp only at h
    injection h with h1 h2
    exact absurd h1 (by simp)
  | none =>
    rw [hsep] at h
    dsimp only at h
    refine ⟨rfl, ?_⟩
    cases hrest : splitRe a2 with
    | nil => exact absurd hrest (splitRe_ne_nil a2)
    | cons b bs =>
      rw [hrest] at h
      dsimp only at h
      injection h with h1 h2
      injection h1 with h1a h1b
      rw [h1b, h2]

theorem takeWhile_append_stop {p : Char → Bool} :
    ∀ (a z : List Char), (∃ c ∈ a, p c = false) →
      (a ++ z).takeWhile p = a.takeWhile p := by
  intro a z
  induction a with
  | nil => rintro ⟨c, hc, _⟩; cases hc
  | cons u us ih =>
    rintro ⟨c, hc, hpc⟩
    by_cases hu : p u = true
    · rw [List.cons_append, List.takeWhile_cons_of_pos hu,
        List.takeWhile_cons_of_pos hu]
      have hcus : c ∈ us := by
        rcases List.mem_cons.mp hc with rfl | h
        · rw [hu] at hpc; cases hpc
        · exact h
      rw [ih ⟨c, hcus, hpc⟩]
    · rw [List.cons_append, List.takeWhile_cons_of_neg hu,
        List.takeWhile_cons_of_neg hu]

theorem sepRemainder_junction (b : List Char)
    (hb : ∀ x, b.head? = some x → isPySpace x = false) :
    sepRemainder ('\n' :: '\n' :: b) = some b := by
  have hrun : ('\n' :: b).takeWhile isPySpace = ['\n'] := by
    rw [List.takeWhile_cons_of_pos (by decide)]
    cases hb2 : b with
    | nil => rfl
    | cons x bs =>
      rw [List.takeWhile_cons_of_neg]
      rw [hb x (by rw [hb2]; rfl)]
      simp
  unfold sepRemainder
  dsimp only
  rw [if_pos rfl]
  rw [hrun]
  rw [if_pos (by decide : (['\n'] : List Char).contains '\n' = true)]
  rfl

theorem getLast?_cons_of_ne_nil {c : Char} {l : List Char} (h : l ≠ []) :
    (c :: l).getLast? = l.getLast? := by
  cases l with
  | nil => exact absurd rfl h
  | cons u us => exact List.getLast?_cons_cons

theorem splitRe_append (b : List Char)
    (hb : ∀ x, b.head? = some x → isPySpace x = false) :
    ∀ (a : List Char), splitRe a = [a] →
      (∀ x, a.getLast? = some x → isPySpace x = false) →
      splitRe (a ++ '\n' :: '\n' :: b) = a :: splitRe b := by
  intro a
  induction a with
  | nil =>
    intro _ _
    rw [List.nil_append, splitRe_eq, sepRemainder_junction b hb]
  | cons c a2 ih =>
    intro hsingle hlast
    obtain ⟨hnone, ha2⟩ := splitRe_singleton_inv hsingle
    have hnone2 : sepRemainder (c :: (a2 ++ '\n' :: '\n' :: b)) = none := by
      unfold sepRemainder
      dsimp only
      by_cases hc : c = '\n'
      · rw [if_pos hc]
        have hcontains : ((a2.takeWhile isPySpace).contains '\n') = false := by
          by_contra hcon
          rw [Bool.not_eq_false] at hcon
          unfold sepRemainder at hnone
          dsimp only at hnone
          rw [if_pos hc, hcon] at hnone
          simp at hnone
        have hex : ∃ x ∈ a2, isPySpace x = false := by
          by_cases hane : a2 = []
          · exfalso
            subst hane
            have := hlast c (by simp)
            rw [hc] at this
            exact absurd this (by decide)
          · obtain ⟨x, hx⟩ : ∃ x, a2.getLast? = some x := by
              cases hg : a2.getLast? with
              | none => exact absurd (List.getLast?_eq_none_iff.mp hg) hane
              | some x => exact ⟨x, rfl⟩
            refine ⟨x, List.mem_of_getLast?_eq_some hx, ?_⟩
            apply hlast
            rw [getLast?_cons_of_ne_nil hane]
            exact hx
        rw [takeWhile_append_stop a2 _ hex, hcontains]
        simp
      · rw [if_neg hc]
    rw [List.cons_append, splitRe_eq, hnone2]
    dsimp only
    have hlast2 : ∀ x, a2.getLast? = some x → isPySpace x = false := by
      intro x hx
      cases ha2e : a2 with
      | nil => rw [ha2e] at hx; cases hx
      | cons u us =>
        apply hlast
        rw [ha2e, List.getLast?_cons_cons, ← ha2e]
        exact hx
    rw [ih ha2 hlast2]

theorem data_ne_nil {p : String} (h : p ≠ "") : p.data ≠ [] := by
  intro hd
  apply h
  calc p = ⟨p.data⟩ := rfl
    _ = ⟨[]⟩ := by rw [hd]
    _ = "" := rfl

theorem joinParas_ne_nil : ∀ (ps : List String), ps ≠ [] →
    (∀ p ∈ ps, p ≠ "") → joinParas ps ≠ [] := by
  intro ps hne hclean
  cases ps with
  | nil => exact absurd rfl hne
  | cons p rest =>
    cases rest with
    | nil => exact data_ne_nil (hclean p (by simp))
    | cons q rest2 =>
      show p.data ++ '\n' :: '\n' :: joinParas (q :: rest2) ≠ []
      simp

theorem joinParas_ends : ∀ (ps : List String),
    (∀ p ∈ ps, p ≠ "" ∧ pyStrip p = p) →
    (∀ x, (joinParas ps).head? = some x → isPySpace x = false) ∧
    (∀ x, (joinParas ps).getLast? = some x → isPySpace x = false) := by
  intro ps
  induction ps with
  | nil => exact fun _ => ⟨(fun x hx => nomatch hx), (fun x hx => nomatch hx)⟩
  | cons p rest ih =>
    intro hclean
    have hp := hclean p (by simp)
    have hpe := strip_eq_self_ends hp.2
    cases rest with
    | nil => exact hpe
    | cons q rest2 =>
      have hrest := ih (fun r hr => hclean r (by simp [hr]))
      have hJne : joinParas (q :: rest2) ≠ [] :=
        joinParas_ne_nil (q :: rest2) (by simp)
          (fun r hr => (hclean r (by simp [hr])).1)
      constructor
      · intro x hx
        rw [show joinParas (p :: q :: rest2) =
          p.data ++ '\n' :: '\n' :: joinParas (q :: rest2) from rfl] at hx
        rw [List.head?_append] at hx
        cases hh : p.data.head? with
        | none => exact absurd (List.head?_eq_none_iff.mp hh) (data_ne_nil hp.1)
        | some z =>
          rw [hh] at hx
          injection hx with hx
          rw [← hx]
          exact hpe.1 z hh
      · intro x hx
        rw [show joinParas (p :: q :: rest2) =
          p.data ++ '\n' :: '\n' :: joinParas (q :: rest2) from rfl] at hx
        rw [List.getLast?_append] at hx
        rw [getLast?_cons_of_ne_nil (by simp),
          getLast?_cons_of_ne_nil hJne] at hx
        cases hg : (joinParas (q :: rest2)).getLast? with
        | none => exact absurd (List.getLast?_eq_none_iff.mp hg) hJne
        | some z =>
          rw [hg] at hx
          injection hx with hx
          rw [← hx]
          exact hrest.2 z hg

theorem strip_eq_self_of_ends {l : List Char}
    (h1 : ∀ x, l.head? = some x → isPySpace x = false)
    (h2 : ∀ x, l.getLast? = some x → isPySpace x = false) :
    pyStrip ⟨l⟩ = ⟨l⟩ := by
  unfold pyStrip
  dsimp only
  rw [dropWhile_head_false h1]
  rw [dropWhile_head_false (fun x hx => h2 x (by rwa [List.head?_reverse] at hx))]
  rw [List.reverse_reverse]

theorem splitRe_joinParas : ∀ (ps : List String), ps ≠ [] →
    (∀ p ∈ ps, p ≠ "" ∧ pyStrip p = p ∧ splitRe p.data = [p.data]) →
    splitRe (joinParas ps) = ps.map String.data := by
  intro ps
  induction ps with
  | nil => intro h; exact absurd rfl h
  | cons p rest ih =>
    intro _ hclean
    have hp := hclean p (by simp)
    cases rest with
    | nil =>
      show splitRe p.data = [p.data]
      exact hp.2.2
    | cons q rest2 =>
      show splitRe (p.data ++ '\n' :: '\n' :: joinParas (q :: rest2)) = _
      have hrest : ∀ r ∈ q :: rest2, r ≠ "" ∧ pyStrip r = r ∧
          splitRe r.data = [r.data] := fun r hr => hclean r (by simp [hr])
      have hJhead := (joinParas_ends (q :: rest2)
        (fun r hr => ⟨(hrest r hr).1, (hrest r hr).2.1⟩)).1
      have hpe := strip_eq_self_ends hp.2.1
      rw [splitRe_append (joinParas (q :: rest2)) hJhead p.data hp.2.2 hpe.2]
      rw [ih (by simp) hrest]
      rfl

/-- The round-trip: re-splitting non-empty, trimmed, separator-free
paragraphs joined by a blank line recovers exactly the original sequence,
in order. -/
theorem split_paragraphs_joinParas (ps : List String)
    (h : ∀ p ∈ ps, p ≠ "" ∧ pyStrip p = p ∧ splitRe p.data = [p.data]) :
    split_paragraphs ⟨joinParas ps⟩ = ps := by
  cases hps : ps with
  | nil => rfl
  | cons p rest =>
    rw [← hps]
    have hps_ne : ps ≠ [] := by rw [hps]; simp
    have hends := joinParas_ends ps (fun r hr => ⟨(h r hr).1, (h r hr).2.1⟩)
    unfold split_paragraphs
    rw [strip_eq_self_of_ends hends.1 hends.2]
    rw [show (⟨joinParas ps⟩ : String).data = joinParas ps from rfl]
    rw [splitRe_joinParas ps hps_ne h]
    rw [List.map_map]
    have hmap : ps.map ((fun b => pyStrip ⟨b⟩) ∘ String.data) = ps := by
      rw [List.map_congr_left (g := id) ?_, List.map_id]
      intro a ha
      show pyStrip ⟨a.data⟩ = a
      exact (h a ha).2.1
    rw [hmap]
    exact List.filter_eq_self.mpr (fun b hb => by simp [(h b hb).1])

theorem dropWhile_nil_of_all {p : Char → Bool} :
    ∀ {l : List Char}, (∀ c ∈ l, p c = true) → l.dropWhile p = [] := by
  intro l
  induction l with
  | nil => exact fun _ => rfl
  | cons c cs ih =>
    intro h
    rw [List.dropWhile_cons_of_pos (h c (by simp))]
    exact ih (fun x hx => h x (by simp [hx]))

/-- C7: the segmenter cuts at blank-line separators, trims every block,
drops the blocks that are empty after trimming and preserves paragraph
order: a whitespace-only input yields the empty sequence, every output
block is non-empty and trimmed, rejoining separator-free trimmed
paragraphs with a blank line re-splits to exactly the original sequence,
and the claim's two concrete examples hold. -/
theorem C7_segmenter :
    (∀ t : String, (∀ c ∈ t.data, isPySpace c = true) →
      split_paragraphs t = []) ∧
    (∀ (t : String) (b : String), b ∈ split_paragraphs t →
      b ≠ "" ∧ pyStrip b = b) ∧
    (∀ ps : List String,
      (∀ p ∈ ps, p ≠ "" ∧ pyStrip p = p ∧ splitRe p.data = [p.data]) →
      split_paragraphs ⟨joinParas ps⟩ = ps) ∧
    split_paragraphs "A\n\nB\n\nC" = ["A", "B", "C"] ∧
    split_paragraphs "  \n\n  " = [] := by
  refine ⟨?_, ?_, split_paragraphs_joinParas, by decide, by decide⟩
  · intro t h
    unfold split_paragraphs
    have hstrip : pyStrip t = "" := by
      unfold pyStrip
      rw [dropWhile_nil_of_all h]
      rfl
    rw [hstrip]
    rfl
  · intro t b hb
    unfold split_paragraphs at hb
    obtain ⟨hmem, hne⟩ := List.mem_filter.mp hb
    obtain ⟨x, hx, hbx⟩ := List.mem_map.mp hmem
    refine ⟨by simpa using hne, ?_⟩
    rw [← hbx]
    exact pyStrip_idem ⟨x⟩

theorem C7_segmenter_witness :
    split_paragraphs ⟨joinParas ["Alpha", "Beta"]⟩ = ["Alpha", "Beta"] :=
  C7_segmenter.2.2.1 ["Alpha", "Beta"] (by decide)

theorem alistFind_none_iff {m : List (String × Rec)} {k : String} :
    alistFind m k = none ↔ ∀ e ∈ m, e.1 ≠ k := by
  induction m with
  | nil => simp [alistFind]
  | cons e rest ih =>
    cases e with
    | mk k2 v =>
      by_cases hk : k2 = k
      · simp [alistFind, hk]
      · simp only [alistFind, if_neg hk, ih, List.mem_cons]
        constructor
        · rintro h e2 (rfl | h2)
          · exact hk
          · exact h e2 h2
        · intro h e2 h2
          exact h e2 (Or.inr h2)

theorem alistFind_some_mem {m : List (String × Rec)} {k : String} {v : Rec}
    (h : alistFind m k = some v) : (k, v) ∈ m := by
  induction m with
  | nil => cases h
  | cons e rest ih =>
    cases e with
    | mk k2 v2 =>
      by_cases hk : k2 = k
      · rw [alistFind, if_pos hk] at h
        injection h with h
        subst hk
        subst h
        simp
      · rw [alistFind, if_neg hk] at h
        exact List.mem_cons_of_mem _ (ih h)

theorem alistFind_append_ne {m : List (String × Rec)} {k key : String} {v : Rec}
    (h : k ≠ key) : alistFind (m ++ [(key, v)]) k = alistFind m k := by
  induction m with
  | nil =>
    show alistFind [(key, v)] k = none
    rw [alistFind, if_neg (fun he => h he.symm)]
    rfl
  | cons e rest ih =>
    cases e with
    | mk k2 v2 =>
      by_cases hk : k2 = k
      · rw [List.cons_append, alistFind, if_pos hk, alistFind, if_pos hk]
      · rw [List.cons_append, alistFind, if_neg hk, alistFind, if_neg hk, ih]

theorem alistFind_append_self {m : List (String × Rec)} {key : String} {v : Rec}
    (h : alistFind m key = none) : alistFind (m ++ [(key, v)]) key = some v := by
  induction m with
  | nil =>
    show alistFind [(key, v)] key = some v
    rw [alistFind, if_pos rfl]
  | cons e rest ih =>
    cases e with
    | mk k2 v2 =>
      by_cases hk : k2 = key
      · rw [alistFind, if_pos hk] at h
        cases h
      · rw [alistFind, if_neg hk] at h
        rw [List.cons_append, alistFind, if_neg hk]
        exact ih h

theorem alistFind_set_ne {m : List (String × Rec)} {k key : String} {v : Rec}
    (h : k ≠ key) : alistFind (alistSet m key v) k = alistFind m k := by
  induction m with
  | nil =>
    show alistFind [(key, v)] k = none
    rw [alistFind, if_neg (fun he => h he.symm)]
    rfl
  | cons e rest ih =>
    cases e with
    | mk k2 v2 =>
      by_cases hk : k2 = key
      · rw [alistSet, if_pos hk]
        by_cases hk2 : k2 = k
        · exact absurd (hk2.symm.trans hk) h
        · rw [alistFind, if_neg hk2, alistFind, if_neg hk2]
      · rw [alistSet, if_neg hk]
        by_cases hk2 : k2 = k
        · rw [alistFind, if_pos hk2, alistFind, if_pos hk2]
        · rw [alistFind, if_neg hk2, alistFind, if_neg hk2, ih]

theorem alistSet_mem {m : List (String × Rec)} {key : String} {v : Rec} :
    ∀ e ∈ alistSet m key v, e ∈ m ∨ e = (key, v) := by
  induction m with
  | nil =>
    intro e he
    rcases List.mem_singleton.mp he with rfl
    exact Or.inr rfl
  | cons e2 rest ih =>
    cases e2 with
    | mk k2 v2 =>
      intro e he
      by_cases hk : k2 = key
      · rw [alistSet, if_pos hk] at he
        rcases List.mem_cons.mp he with rfl | h
        · exact Or.inr (by rw [hk])
        · exact Or.inl (List.mem_cons_of_mem _ h)
      · rw [alistSet, if_neg hk] at he
        rcases List.mem_cons.mp he with rfl | h
        · exact Or.inl (by simp)
        · rcases ih e h with h2 | h2
          · exact Or.inl (List.mem_cons_of_mem _ h2)
          · exact Or.inr h2

theorem alistSet_keys {m : List (String × Rec)} {key : String} {v : Rec}
    (h : alistFind m key = some v ∨ alistFind m key ≠ none) :
    (alistSet m key v).map Prod.fst = m.map Prod.fst := by
  induction m with
  | nil =>
    rcases h with h | h
    · cases h
    · exact absurd rfl h
  | cons e rest ih =>
    cases e with
    | mk k2 v2 =>
      by_cases hk : k2 = key
      · rw [alistSet, if_pos hk]
        rfl
      · rw [alistSet, if_neg hk]
        show k2 :: _ = k2 :: _
        have h2 : alistFind rest key ≠ none := by
          rcases h with h | h
          · rw [alistFind, if_neg hk] at h
            rw [h]
            simp
          · rw [alistFind, if_neg hk] at h
            exact h
        rw [ih (Or.inr h2)]

theorem pyMinStr_cases (a b : String) : pyMinStr a b = a ∨ pyMinStr a b = b := by
  unfold pyMinStr
  by_cases h : lexLt b.data a.data = true
  · rw [if_pos h]
    exact Or.inr rfl
  · rw [if_neg h]
    exact Or.inl rfl

theorem mergeDate_cases (a b : String) : mergeDate a b = a ∨ mergeDate a b = b := by
  unfold mergeDate
  by_cases h1 : a ≠ "" ∧ b ≠ ""
  · rw [if_pos h1]
    exact pyMinStr_cases a b
  · rw [if_neg h1]
    by_cases h2 : b ≠ "" ∧ a = ""
    · rw [if_pos h2]
      exact Or.inr rfl
    · rw [if_neg h2]
      exact Or.inl rfl

theorem addFounders_mem :
    ∀ (fs cur seen : List String) (x : String),
      x ∈ addFounders cur seen fs → x ∈ cur ∨ x ∈ fs := by
  intro fs
  induction fs with
  | nil =>
    intro cur seen x hx
    exact Or.inl hx
  | cons f fs2 ih =>
    intro cur seen x hx
    rw [addFounders] at hx
    by_cases hf : seen.contains (casefold f) = true
    · rw [if_pos hf] at hx
      rcases ih _ _ _ hx with h | h
      · exact Or.inl h
      · exact Or.inr (List.mem_cons_of_mem _ h)
    · rw [if_neg hf] at hx
      rcases ih _ _ _ hx with h | h
      · rcases List.mem_append.mp h with h2 | h2
        · exact Or.inl h2
        · rcases List.mem_singleton.mp h2 with rfl
          exact Or.inr (by simp)
      · exact Or.inr (List.mem_cons_of_mem _ h)

theorem addFounders_eq_ciUnion :
    ∀ (fs cur seen : List String), seen = cur.map casefold →
      addFounders cur seen fs = ciUnion cur fs := by
  intro fs
  induction fs with
  | nil => intro cur seen h; rfl
  | cons f fs2 ih =>
    intro cur seen h
    rw [addFounders, ciUnion, List.foldl_cons]
    subst h
    by_cases hf : ((cur.map casefold).contains (casefold f)) = true
    · rw [if_pos hf, if_pos hf]
      exact ih cur _ rfl
    · rw [if_neg hf, if_neg hf]
      rw [ih (cur ++ [f]) _ (by rw [List.map_append]; rfl)]
      rfl

theorem mergeFounders_eq_ciUnion (ex inc : List String) :
    mergeFounders ex inc = ciUnion ex inc :=
  addFounders_eq_ciUnion inc ex (ex.map casefold) rfl

theorem ciUnion_pairwise :
    ∀ (fs cur : List String),
      List.Pairwise (fun a b => casefold a ≠ casefold b) cur →
      List.Pairwise (fun a b => casefold a ≠ casefold b) (ciUnion cur fs) := by
  intro fs
  induction fs with
  | nil => intro cur h; exact h
  | cons f fs2 ih =>
    intro cur h
    rw [ciUnion, List.foldl_cons]
    by_cases hf : ((cur.map casefold).contains (casefold f)) = true
    · rw [if_pos hf]
      exact ih cur h
    · rw [if_neg hf]
      refine ih (cur ++ [f]) ?_
      rw [List.pairwise_append]
      refine ⟨h, List.pairwise_singleton _ _, ?_⟩
      intro a ha b hb
      rcases List.mem_singleton.mp hb with rfl
      intro he
      apply hf
      rw [List.contains_iff_exists_mem_beq]
      exact ⟨casefold a, List.mem_map_of_mem casefold ha, by simp [he]⟩

theorem dedupeStep_inv {m : List (String × Rec)} {r : Rec}
    (hpw : List.Pairwise (fun a b => a.1 ≠ b.1) m)
    (hcl : ∀ e ∈ m, entryClean e) :
    List.Pairwise (fun a b => a.1 ≠ b.1) (dedupeStep m r) ∧
    (∀ e ∈ dedupeStep m r, entryClean e) := by
  unfold dedupeStep
  dsimp only
  by_cases hname : pyStrip r.company_name = ""
  · rw [if_pos hname]
    exact ⟨hpw, hcl⟩
  · rw [if_neg hname]
    cases hfind : alistFind m (casefold (pyStrip r.company_name)) with
    | none =>
      constructor
      · rw [List.pairwise_append]
        refine ⟨hpw, List.pairwise_singleton _ _, ?_⟩
        intro a ha b hb
        rcases List.mem_singleton.mp hb with rfl
        exact (alistFind_none_iff.mp hfind) a ha
      · intro e he
        rcases List.mem_append.mp he with h | h
        · exact hcl e h
        · rcases List.mem_singleton.mp h with rfl
          refine ⟨rfl, pyStrip_idem _, hname, pyStrip_idem _, ?_⟩
          intro f hf
          have := List.of_mem_filter hf
          simpa using this
    | some v =>
      have hmem := alistFind_some_mem hfind
      have hv := hcl _ hmem
      constructor
      · have hkeys := @alistSet_keys m (casefold (pyStrip r.company_name))
          (⟨v.company_name,
            mergeDate v.founding_date (pyStrip r.founding_date),
            mergeFounders v.founders (r.founders.filter (fun f => f != ""))⟩)
          (Or.inr (by rw [hfind]; simp))
        have hpw2 : (m.map Prod.fst).Pairwise (fun a b => a ≠ b) :=
          List.pairwise_map.mpr hpw
        rw [← hkeys] at hpw2
        exact List.pairwise_map.mp hpw2
      · intro e he
        rcases alistSet_mem e he with h | h
        · exact hcl e h
        · subst h
          refine ⟨hv.1, hv.2.1, hv.2.2.1, ?_, ?_⟩
          · show pyStrip (mergeDate v.founding_date (pyStrip r.founding_date)) =
              mergeDate v.founding_date (pyStrip r.founding_date)
            rcases mergeDate_cases v.founding_date (pyStrip r.founding_date) with
              hmd | hmd
            · rw [hmd]
              exact hv.2.2.2.1
            · rw [hmd]
              exact pyStrip_idem _
          · intro f hf
            rcases addFounders_mem _ _ _ _ hf with h2 | h2
            · exact hv.2.2.2.2 f h2
            · have := List.of_mem_filter h2
              simpa using this

theorem foldl_dedupeStep_inv : ∀ (recs : List Rec) (m : List (String × Rec)),
    List.Pairwise (fun a b => a.1 ≠ b.1) m → (∀ e ∈ m, entryClean e) →
    List.Pairwise (fun a b => a.1 ≠ b.1) (recs.foldl dedupeStep m) ∧
    (∀ e ∈ recs.foldl dedupeStep m, entryClean e) := by
  intro recs
  induction recs with
  | nil => exact fun m h1 h2 => ⟨h1, h2⟩
  | cons r rest ih =>
    intro m h1 h2
    rw [List.foldl_cons]
    obtain ⟨h3, h4⟩ := dedupeStep_inv h1 h2
    exact ih _ h3 h4

theorem buildMap_inv (recs : List Rec) :
    List.Pairwise (fun a b => a.1 ≠ b.1) (buildMap recs) ∧
    ∀ e ∈ buildMap recs, entryClean e :=
  foldl_dedupeStep_inv recs [] (by simp) (by simp)

theorem recLe_trans {a b c : Rec} (h1 : recLe a b = true) (h2 : recLe b c = true) :
    recLe a c = true := strLe_trans h1 h2

theorem recLe_total (a b : Rec) : recLe a b || recLe b a := strLe_total _ _

theorem dedupe_mem_clean {recs : List Rec} {r : Rec} (h : r ∈ dedupe_records recs) :
    pyStrip r.company_name = r.company_name ∧ r.company_name ≠ "" ∧
    pyStrip r.founding_date = r.founding_date ∧ ∀ f ∈ r.founders, f ≠ "" := by
  unfold dedupe_records at h
  rw [List.mem_mergeSort] at h
  obtain ⟨e, he, hre⟩ := List.mem_map.mp h
  obtain ⟨h1, h2, h3, h4, h5⟩ := (buildMap_inv recs).2 e he
  rw [hre] at h2 h3 h4 h5
  exact ⟨h2, h3, h4, h5⟩

theorem dedupe_keys_distinct (recs : List Rec) :
    (dedupe_records recs).Pairwise
      (fun a b => casefold a.company_name ≠ casefold b.company_name) := by
  have h1 := (buildMap_inv recs).1
  have h2 := (buildMap_inv recs).2
  have hvals : ((buildMap recs).map Prod.snd).Pairwise
      (fun a b => casefold a.company_name ≠ casefold b.company_name) := by
    rw [List.pairwise_map]
    refine List.Pairwise.imp_of_mem ?_ h1
    intro a b ha hb hne
    have hca := (h2 a ha).1
    have hcb := (h2 b hb).1
    rw [← hca, ← hcb]
    exact hne
  unfold dedupe_records
  have hperm : List.Perm (((buildMap recs).map Prod.snd).mergeSort recLe)
      ((buildMap recs).map Prod.snd) := List.mergeSort_perm _ _
  refine (List.Perm.pairwise_iff ?_ hperm).mpr hvals
  intro a b hab
  exact fun he => hab he.symm

theorem dedupe_sorted (recs : List Rec) :
    (dedupe_records recs).Pairwise (fun a b => recLe a b = true) := by
  unfold dedupe_records
  exact @List.sorted_mergeSort Rec recLe
    (fun a b c h1 h2 => recLe_trans h1 h2) (fun a b => recLe_total a b) _

theorem buildMap_filter_eq : ∀ (recs : List Rec) (m : List (String × Rec)),
    recs.foldl dedupeStep m =
      (recs.filter (fun r => pyStrip r.company_name != "")).foldl dedupeStep m := by
  intro recs
  induction recs with
  | nil => intro m; rfl
  | cons r rest ih =>
    intro m
    rw [List.foldl_cons, List.filter_cons]
    by_cases hr : (pyStrip r.company_name != "") = true
    · rw [if_pos hr, List.foldl_cons, ih]
    · rw [if_neg hr]
      have hstep : dedupeStep m r = m := by
        unfold dedupeStep
        dsimp only
        rw [if_pos (by simpa using hr)]
      rw [hstep, ih]

/-- C8: the merge output is sorted ascending by case-folded company name,
holds at most one record per distinct case-folded trimmed name, and
records whose name is empty after trimming contribute nothing. -/
theorem C8_merge_invariants (recs : List Rec) :
    (dedupe_records recs).Pairwise (fun a b => recLe a b = true) ∧
    (dedupe_records recs).Pairwise
      (fun a b => casefold a.company_name ≠ casefold b.company_name) ∧
    dedupe_records recs =
      dedupe_records (recs.filter (fun r => pyStrip r.company_name != "")) := by
  refine ⟨dedupe_sorted recs, dedupe_keys_distinct recs, ?_⟩
  unfold dedupe_records
  rw [buildMap_filter_eq]

theorem foldl_clean_eq : ∀ (Y : List Rec) (m : List (String × Rec)),
    (∀ r ∈ Y, pyStrip r.company_name = r.company_name ∧ r.company_name ≠ "" ∧
      pyStrip r.founding_date = r.founding_date ∧ ∀ f ∈ r.founders, f ≠ "") →
    Y.Pairwise (fun a b => casefold a.company_name ≠ casefold b.company_name) →
    (∀ e ∈ m, ∀ r ∈ Y, e.1 ≠ casefold r.company_name) →
    Y.foldl dedupeStep m = m ++ Y.map (fun r => (casefold r.company_name, r)) := by
  intro Y
  induction Y with
  | nil => intro m _ _ _; simp
  | cons r rest ih =>
    intro m hclean hpw hdis
    rw [List.foldl_cons]
    have hr := hclean r (by simp)
    have hstep : dedupeStep m r = m ++ [(casefold r.company_name, r)] := by
      unfold dedupeStep
      dsimp only
      rw [hr.1, if_neg hr.2.1,
        show alistFind m (casefold r.company_name) = none from
          alistFind_none_iff.mpr (fun e he => hdis e he r (by simp))]
      dsimp only
      rw [hr.2.2.1,
        List.filter_eq_self.mpr (fun f hf => by simp [hr.2.2.2 f hf])]
    rw [hstep]
    rw [ih (m ++ [(casefold r.company_name, r)])
      (fun r2 h2 => hclean r2 (by simp [h2]))
      (List.Pairwise.of_cons hpw)
      ?_]
    · rw [List.map_cons, List.append_assoc]
      rfl
    · intro e he r2 h2
      rcases List.mem_append.mp he with h | h
      · exact hdis e h r2 (by simp [h2])
      · rcases List.mem_singleton.mp h with rfl
        exact (List.rel_of_pairwise_cons hpw h2)

theorem dedupe_idem_aux {Y : List Rec}
    (hclean : ∀ r ∈ Y, pyStrip r.company_name = r.company_name ∧
      r.company_name ≠ "" ∧ pyStrip r.founding_date = r.founding_date ∧
      ∀ f ∈ r.founders, f ≠ "")
    (hpw : Y.Pairwise (fun a b => casefold a.company_name ≠ casefold b.company_name))
    (hsorted : Y.Pairwise (fun a b => recLe a b = true)) :
    dedupe_records Y = Y := by
  unfold dedupe_records
  rw [show Y.foldl dedupeStep [] =
      [] ++ Y.map (fun r => (casefold r.company_name, r)) from
    foldl_clean_eq Y [] hclean hpw (fun e he => absurd he (by simp))]
  rw [List.nil_append, List.map_map,
    show (Prod.snd ∘ fun r : Rec => (casefold r.company_name, r)) =
      (id : Rec → Rec) from rfl,
    List.map_id]
  exact List.mergeSort_of_sorted hsorted

/-- C9: merge is idempotent: feeding the merge output back in yields the
same list of canonical records. -/
theorem C9_merge_idempotent (X : List Rec) :
    dedupe_records (dedupe_records X) = dedupe_records X := by
  apply dedupe_idem_aux
  · intro r hr
    exact dedupe_mem_clean hr
  · exact dedupe_keys_distinct X
  · exact dedupe_sorted X

theorem mergeDate_empty_left (d : String) : mergeDate "" d = d := by
  unfold mergeDate
  rw [if_neg (by simp)]
  by_cases hd : d = ""
  · rw [if_neg (by simp [hd]), hd]
  · rw [if_pos ⟨hd, rfl⟩]

theorem mergeDate_empty_right (a : String) : mergeDate a "" = a := by
  unfold mergeDate
  rw [if_neg (by simp), if_neg (by simp)]

theorem foldl_pyMinStr_mem : ∀ (xs : List String) (x : String),
    xs.foldl pyMinStr x ∈ x :: xs := by
  intro xs
  induction xs with
  | nil => intro x; simp
  | cons y ys ih =>
    intro x
    rw [List.foldl_cons]
    rcases pyMinStr_cases x y with hm | hm
    · rcases List.mem_cons.mp (ih (pyMinStr x y)) with h | h
      · rw [h, hm]
        simp
      · simp [h]
    · rcases List.mem_cons.mp (ih (pyMinStr x y)) with h | h
      · rw [h, hm]
        simp
      · simp [h]

theorem lexMinNonempty_single (d : String) : lexMinNonempty [d] = d := by
  unfold lexMinNonempty
  by_cases hd : d = ""
  · rw [hd]
    decide
  · rw [List.filter_cons]
    rw [show ((d != "") = true) from by simp [hd]]
    rfl

theorem lexMinNonempty_ne_empty {ds : List String}
    (h : ds.filter (fun d => d != "") ≠ []) : lexMinNonempty ds ≠ "" := by
  unfold lexMinNonempty
  cases hf : ds.filter (fun d => d != "") with
  | nil => exact absurd hf h
  | cons x xs =>
    have hmem := foldl_pyMinStr_mem xs x
    rw [← hf] at hmem
    have := List.of_mem_filter hmem
    simpa using this

theorem lexMinNonempty_append (ds : List String) (d : String) :
    lexMinNonempty (ds ++ [d]) = mergeDate (lexMinNonempty ds) d := by
  by_cases hd : d = ""
  · subst hd
    rw [mergeDate_empty_right]
    unfold lexMinNonempty
    rw [List.filter_append]
    rw [show List.filter (fun d => d != "") [""] = [] from by simp]
    rw [List.append_nil]
  · unfold lexMinNonempty
    rw [List.filter_append]
    rw [show List.filter (fun x => x != "") [d] = [d] from by simp [hd]]
    cases hf : ds.filter (fun x => x != "") with
    | nil =>
      show List.foldl pyMinStr d [] = mergeDate "" d
      rw [mergeDate_empty_left]
      rfl
    | cons x xs =>
      show List.foldl pyMinStr x (xs ++ [d]) =
        mergeDate (List.foldl pyMinStr x xs) d
      rw [List.foldl_append]
      have hne : List.foldl pyMinStr x xs ≠ "" := by
        have hmem := foldl_pyMinStr_mem xs x
        rw [← hf] at hmem
        have := List.of_mem_filter hmem
        simpa using this
      unfold mergeDate
      rw [if_pos ⟨hne, hd⟩]
      rfl

theorem alistFind_set_self {m : List (String × Rec)} {key : String} {v : Rec} :
    alistFind (alistSet m key v) key = some v := by
  induction m with
  | nil =>
    show alistFind [(key, v)] key = some v
    rw [alistFind, if_pos rfl]
  | cons e rest ih =>
    cases e with
    | mk k2 v2 =>
      by_cases hk : k2 = key
      · rw [alistSet, if_pos hk, alistFind, if_pos hk]
      · rw [alistSet, if_neg hk, alistFind, if_neg hk]
        exact ih

theorem alistFind_of_mem_distinct :
    ∀ {m : List (String × Rec)},
      List.Pairwise (fun a b => a.1 ≠ b.1) m →
      ∀ {k : String} {v : Rec}, (k, v) ∈ m → alistFind m k = some v := by
  intro m
  induction m with
  | nil => intro _ k v h; cases h
  | cons e rest ih =>
    cases e with
    | mk k2 v2 =>
      intro hpw k v h
      rcases List.mem_cons.mp h with h2 | h2
      · injection h2 with ha hb
        rw [alistFind, if_pos (by rw [ha])]
        rw [hb]
      · by_cases hk : k2 = k
        · exfalso
          have := List.rel_of_pairwise_cons hpw h2
          exact this hk
        · rw [alistFind, if_neg hk]
          exact ih (List.Pairwise.of_cons hpw) h2

theorem buildMap_append (recs : List Rec) (r : Rec) :
    buildMap (recs ++ [r]) = dedupeStep (buildMap recs) r := by
  unfold buildMap
  rw [List.foldl_append]
  rfl

theorem groupDates_append (recs : List Rec) (r : Rec) (k : String) :
    groupDates (recs ++ [r]) k =
      groupDates recs k ++
        (if pyStrip r.company_name ≠ "" ∧ casefold (pyStrip r.company_name) = k
         then [pyStrip r.founding_date] else []) := by
  unfold groupDates
  rw [List.filterMap_append]
  congr 1
  by_cases hc : pyStrip r.company_name ≠ "" ∧ casefold (pyStrip r.company_name) = k
  · rw [if_pos hc]
    show List.filterMap _ [r] = _
    rw [List.filterMap_cons]
    rw [if_pos hc]
    rfl
  · rw [if_neg hc]
    show List.filterMap _ [r] = _
    rw [List.filterMap_cons]
    rw [if_neg hc]
    rfl

theorem buildMap_dates : ∀ (recs : List Rec) (k : String),
    (∀ v, alistFind (buildMap recs) k = some v →
      v.founding_date = lexMinNonempty (groupDates recs k)) ∧
    (alistFind (buildMap recs) k = none → groupDates recs k = []) := by
  intro recs
  induction recs using List.reverseRecOn with
  | nil =>
    intro k
    constructor
    · intro v hv
      cases hv
    · intro _
      rfl
  | append_singleton recs r ih =>
    intro k
    rw [buildMap_append, groupDates_append]
    unfold dedupeStep
    dsimp only
    by_cases hname : pyStrip r.company_name = ""
    · rw [if_pos hname]
      rw [if_neg (by simp [hname])]
      rw [List.append_nil]
      exact ih k
    · rw [if_neg hname]
      by_cases hk : casefold (pyStrip r.company_name) = k
      · rw [if_pos ⟨hname, hk⟩]
        subst hk
        cases hfind : alistFind (buildMap recs)
            (casefold (pyStrip r.company_name)) with
        | none =>
          rw [(ih _).2 hfind]
          constructor
          · intro v hv
            rw [alistFind_append_self hfind] at hv
            injection hv with hv
            rw [← hv]
            show pyStrip r.founding_date = lexMinNonempty ([] ++ _)
            rw [List.nil_append, lexMinNonempty_single]
          · intro hnone
            rw [alistFind_append_self hfind] at hnone
            cases hnone
        | some v0 =>
          constructor
          · intro v hv
            rw [alistFind_set_self] at hv
            injection hv with hv
            rw [← hv]
            show mergeDate v0.founding_date (pyStrip r.founding_date) = _
            rw [lexMinNonempty_append, (ih _).1 v0 hfind]
          · intro hnone
            rw [alistFind_set_self] at hnone
            cases hnone
      · rw [if_neg (by intro hc; exact hk hc.2)]
        rw [List.append_nil]
        cases hfind : alistFind (buildMap recs)
            (casefold (pyStrip r.company_name)) with
        | none =>
          constructor
          · intro v hv
            rw [alistFind_append_ne (fun he => hk he.symm)] at hv
            exact (ih k).1 v hv
          · intro hnone
            rw [alistFind_append_ne (fun he => hk he.symm)] at hnone
            exact (ih k).2 hnone
        | some v0 =>
          constructor
          · intro v hv
            rw [alistFind_set_ne (fun he => hk he.symm)] at hv
            exact (ih k).1 v hv
          · intro hnone
            rw [alistFind_set_ne (fun he => hk he.symm)] at hnone
            exact (ih k).2 hnone

theorem lexLt_irrefl : ∀ (l : List Char), lexLt l l = false := by
  intro l
  induction l with
  | nil => rfl
  | cons c cs ih =>
    simp only [lexLt, Bool.or_eq_false_iff, Bool.and_eq_false_iff,
      decide_eq_false_iff_not]
    exact ⟨fun h => absurd rfl (Char.ne_of_lt h), Or.inr ih⟩

theorem strLe_refl (a : String) : strLe a a = true := by
  unfold strLe
  rw [lexLt_irrefl]
  rfl

theorem pyMinStr_le_left (a b : String) : strLe (pyMinStr a b) a = true := by
  unfold pyMinStr
  by_cases h : lexLt b.data a.data = true
  · rw [if_pos h]
    unfold strLe
    rw [lexLt_asymm h]
    rfl
  · rw [if_neg h]
    exact strLe_refl a

theorem pyMinStr_le_right (a b : String) : strLe (pyMinStr a b) b = true := by
  unfold pyMinStr
  by_cases h : lexLt b.data a.data = true
  · rw [if_pos h]
    exact strLe_refl b
  · rw [if_neg h]
    unfold strLe
    rw [Bool.not_eq_true] at h
    rw [h]
    rfl

theorem foldl_pyMinStr_le_init : ∀ (xs : List String) (x : String),
    strLe (xs.foldl pyMinStr x) x = true := by
  intro xs
  induction xs with
  | nil => intro x; exact strLe_refl x
  | cons y ys ih =>
    intro x
    rw [List.foldl_cons]
    exact strLe_trans (ih (pyMinStr x y)) (pyMinStr_le_left x y)

theorem foldl_pyMinStr_le : ∀ (xs : List String) (x d : String),
    d ∈ x :: xs → strLe (xs.foldl pyMinStr x) d = true := by
  intro xs
  induction xs with
  | nil =>
    intro x d hd
    rcases List.mem_singleton.mp hd with rfl
    exact strLe_refl d
  | cons y ys ih =>
    intro x d hd
    rw [List.foldl_cons]
    rcases List.mem_cons.mp hd with rfl | hd2
    · exact strLe_trans (foldl_pyMinStr_le_init ys (pyMinStr d y))
        (pyMinStr_le_left d y)
    · rcases List.mem_cons.mp hd2 with rfl | hd3
      · exact strLe_trans (foldl_pyMinStr_le_init ys (pyMinStr x d))
          (pyMinStr_le_right x d)
      · exact ih (pyMinStr x y) d (List.mem_cons_of_mem _ hd3)

theorem lexMinNonempty_le {ds : List String} {d : String}
    (hd : d ∈ ds) (hne : d ≠ "") : strLe (lexMinNonempty ds) d = true := by
  have hmem : d ∈ ds.filter (fun x => x != "") :=
    List.mem_filter.mpr ⟨hd, by simp [hne]⟩
  unfold lexMinNonempty
  cases hf : ds.filter (fun x => x != "") with
  | nil =>
    rw [hf] at hmem
    cases hmem
  | cons x xs =>
    rw [hf] at hmem
    exact foldl_pyMinStr_le xs x d hmem

theorem lexMinNonempty_mem (ds : List String) :
    lexMinNonempty ds = "" ∨ lexMinNonempty ds ∈ ds := by
  unfold lexMinNonempty
  cases hf : ds.filter (fun x => x != "") with
  | nil => exact Or.inl rfl
  | cons x xs =>
    right
    have hmem := foldl_pyMinStr_mem xs x
    rw [← hf] at hmem
    exact List.mem_of_mem_filter hmem

theorem dedupe_date_eq {recs : List Rec} {r : Rec} (h : r ∈ dedupe_records recs) :
    r.founding_date =
      lexMinNonempty (groupDates recs (casefold r.company_name)) := by
  unfold dedupe_records at h
  rw [List.mem_mergeSort] at h
  obtain ⟨e, he, hre⟩ := List.mem_map.mp h
  have hpw := (buildMap_inv recs).1
  have hcl := (buildMap_inv recs).2 e he
  have hk : e.1 = casefold r.company_name := by rw [hcl.1, hre]
  have he2 : (casefold r.company_name, r) ∈ buildMap recs := by
    rw [← hk, ← hre]
    exact he
  have hfind := alistFind_of_mem_distinct hpw he2
  exact (buildMap_dates recs (casefold r.company_name)).1 r hfind

/-- C1: within each company group the merged founding date is the
lexicographic minimum of the group's non-empty (stripped) dates, and the
empty string when all are empty: the pairwise merge keeps the smaller of
two non-empty dates and the non-empty side when only one is non-empty;
the minimum really is one (a member and a lower bound of the non-empty
dates); and the claim's two-record merge example holds after the dates
are normalized. -/
theorem C1_founding_date_resolution :
    (∀ (recs : List Rec) (r : Rec), r ∈ dedupe_records recs →
      r.founding_date =
        lexMinNonempty (groupDates recs (casefold r.company_name))) ∧
    (∀ a b : String, a ≠ "" → b ≠ "" → mergeDate a b = pyMinStr a b) ∧
    (∀ a : String, mergeDate a "" = a ∧ mergeDate "" a = a) ∧
    (∀ (ds : List String) (d : String), d ∈ ds → d ≠ "" →
      strLe (lexMinNonempty ds) d = true) ∧
    (∀ ds : List String, lexMinNonempty ds = "" ∨ lexMinNonempty ds ∈ ds) ∧
    dedupe_records [⟨"Acme Inc.", normalize_date_string "1990", ["Jane"]⟩,
        ⟨"acme inc.", normalize_date_string "1990-03-05", ["jane", "Bob"]⟩] =
      [⟨"Acme Inc.", "1990-01-01", ["Jane", "Bob"]⟩] := by
  refine ⟨fun recs r h => dedupe_date_eq h,
    fun a b ha hb => by unfold mergeDate; rw [if_pos ⟨ha, hb⟩],
    fun a => ⟨mergeDate_empty_right a, mergeDate_empty_left a⟩,
    fun ds d hd hne => lexMinNonempty_le hd hne,
    lexMinNonempty_mem, ?_⟩
  show (List.mergeSort _ recLe) = _
  rw [show (([⟨"Acme Inc.", normalize_date_string "1990", ["Jane"]⟩,
      ⟨"acme inc.", normalize_date_string "1990-03-05", ["jane", "Bob"]⟩] :
        List Rec).foldl dedupeStep []).map Prod.snd =
      [⟨"Acme Inc.", "1990-01-01", ["Jane", "Bob"]⟩] from by decide]
  exact List.mergeSort_singleton _

theorem C1_founding_date_resolution_witness :
    (⟨"Acme Inc.", "1990-01-01", ["Jane", "Bob"]⟩ : Rec).founding_date =
      lexMinNonempty (groupDates
        [⟨"Acme Inc.", "1990-01-01", ["Jane"]⟩,
         ⟨"acme inc.", "1990-03-05", ["jane", "Bob"]⟩]
        (casefold ("Acme Inc." : String))) :=
  C1_founding_date_resolution.1
    [⟨"Acme Inc.", "1990-01-01", ["Jane"]⟩,
     ⟨"acme inc.", "1990-03-05", ["jane", "Bob"]⟩]
    ⟨"Acme Inc.", "1990-01-01", ["Jane", "Bob"]⟩
    (by
      show _ ∈ (List.mergeSort _ recLe)
      rw [show (([⟨"Acme Inc.", "1990-01-01", ["Jane"]⟩,
          ⟨"acme inc.", "1990-03-05", ["jane", "Bob"]⟩] :
            List Rec).foldl dedupeStep []).map Prod.snd =
          [⟨"Acme Inc.", "1990-01-01", ["Jane", "Bob"]⟩] from by decide]
      rw [List.mergeSort_singleton]
      simp)

theorem dedupeStep_founders {m : List (String × Rec)} {r : Rec}
    (hr : List.Pairwise (fun a b => casefold a ≠ casefold b) r.founders)
    (hm : ∀ e ∈ m, List.Pairwise (fun a b => casefold a ≠ casefold b) e.2.founders) :
    ∀ e ∈ dedupeStep m r,
      List.Pairwise (fun a b => casefold a ≠ casefold b) e.2.founders := by
  unfold dedupeStep
  dsimp only
  by_cases hname : pyStrip r.company_name = ""
  · rw [if_pos hname]
    exact hm
  · rw [if_neg hname]
    cases hfind : alistFind m (casefold (pyStrip r.company_name)) with
    | none =>
      intro e he
      rcases List.mem_append.mp he with h | h
      · exact hm e h
      · rcases List.mem_singleton.mp h with rfl
        exact hr.sublist (List.filter_sublist _)
    | some v =>
      intro e he
      rcases alistSet_mem e he with h | h
      · exact hm e h
      · subst h
        show List.Pairwise _ (mergeFounders v.founders _)
        rw [mergeFounders_eq_ciUnion]
        exact ciUnion_pairwise _ _ (hm _ (alistFind_some_mem hfind))

theorem foldl_founders_pairwise : ∀ (recs : List Rec) (m : List (String × Rec)),
    (∀ r ∈ recs, List.Pairwise (fun a b => casefold a ≠ casefold b) r.founders) →
    (∀ e ∈ m, List.Pairwise (fun a b => casefold a ≠ casefold b) e.2.founders) →
    ∀ e ∈ recs.foldl dedupeStep m,
      List.Pairwise (fun a b => casefold a ≠ casefold b) e.2.founders := by
  intro recs
  induction recs with
  | nil => exact fun m _ hm => hm
  | cons r rest ih =>
    intro m hrecs hm
    rw [List.foldl_cons]
    exact ih _ (fun r2 h2 => hrecs r2 (by simp [h2]))
      (dedupeStep_founders (hrecs r (by simp)) hm)

/-- C3 counterexample: a single record whose own founders list contains a
case-insensitive duplicate is copied into its group verbatim, so the
output founders are not pairwise distinct under case folding, contrary to
the claim. -/
theorem C3_founders_union_counterexample :
    dedupe_records [⟨"A", "", ["Bob", "bob"]⟩] = [⟨"A", "", ["Bob", "bob"]⟩] ∧
    ¬ List.Pairwise (fun a b => casefold a ≠ casefold b)
        (["Bob", "bob"] : List String) := by
  constructor
  · show (List.mergeSort _ recLe) = _
    rw [show (([⟨"A", "", ["Bob", "bob"]⟩] : List Rec).foldl
        dedupeStep []).map Prod.snd = [⟨"A", "", ["Bob", "bob"]⟩] from by decide]
    exact List.mergeSort_singleton _
  · intro h
    exact (List.pairwise_cons.mp h).1 "bob" (by simp) (by decide)

/-- C3 (amended): per group the founders are the first record's
empty-filtered founders list taken verbatim, then each later record's
founders unioned in first-occurrence order with case-insensitive duplicate
detection keeping the first occurrence's casing (`mergeFounders` is
exactly that union walk); consequently, whenever every input record's own
founders list is already pairwise distinct under case folding, every
output founders list is pairwise distinct under case folding. -/
theorem C3_founders_union :
    (∀ ex inc : List String, mergeFounders ex inc = ciUnion ex inc) ∧
    (∀ recs : List Rec,
      (∀ r ∈ recs,
        List.Pairwise (fun a b => casefold a ≠ casefold b) r.founders) →
      ∀ out ∈ dedupe_records recs,
        List.Pairwise (fun a b => casefold a ≠ casefold b) out.founders) := by
  refine ⟨mergeFounders_eq_ciUnion, ?_⟩
  intro recs hrecs out hout
  unfold dedupe_records at hout
  rw [List.mem_mergeSort] at hout
  obtain ⟨e, he, hre⟩ := List.mem_map.mp hout
  have := foldl_founders_pairwise recs [] hrecs (by simp) e he
  rw [hre] at this
  exact this

theorem C3_founders_union_witness :
    List.Pairwise (fun a b => casefold a ≠ casefold b)
      (⟨"A", "", ["Bob", "Alice", "Carol"]⟩ : Rec).founders :=
  C3_founders_union.2 [⟨"A", "", ["Bob", "Alice"]⟩, ⟨"a", "", ["bob", "Carol"]⟩]
    (by
      intro r hr
      rcases List.mem_cons.mp hr with rfl | hr2
      · refine List.pairwise_cons.mpr ⟨?_, List.pairwise_singleton _ _⟩
        intro b hb
        rcases List.mem_singleton.mp hb with rfl
        decide
      · rcases List.mem_singleton.mp hr2 with rfl
        refine List.pairwise_cons.mpr ⟨?_, List.pairwise_singleton _ _⟩
        intro b hb
        rcases List.mem_singleton.mp hb with rfl
        decide)
    ⟨"A", "", ["Bob", "Alice", "Carol"]⟩
    (by
      show _ ∈ (List.mergeSort _ recLe)
      rw [show (([⟨"A", "", ["Bob", "Alice"]⟩, ⟨"a", "", ["bob", "Carol"]⟩] :
          List Rec).foldl dedupeStep []).map Prod.snd =
          [⟨"A", "", ["Bob", "Alice", "Carol"]⟩] from by decide]
      rw [List.mergeSort_singleton]
      simp)

example : split_paragraphs "A\n \t\nB" = ["A", "B"] := by decide

example : split_paragraphs "A\n\n  \nB" = ["A", "B"] := by decide

example : split_paragraphs "A\n\n  x" = ["A", "x"] := by decide

example : split_paragraphs "x\n\n\t\n y" = ["x", "y"] := by decide

example : split_paragraphs "a\r\n\r\nb" = ["a", "b"] := by decide

example : split_paragraphs "a\n\x0b\nb" = ["a", "b"] := by decide

example : split_paragraphs "a\n\nb\nc\n\n\nd" = ["a", "b\nc", "d"] := by decide

example : split_paragraphs "a\nb" = ["a\nb"] := by decide

example : normalize_date_string "1990-123-4" = "1990-01-01" := by decide

example : normalize_date_string "March 5,1990" = "1990-01-01" := by decide

example : normalize_date_string "March 123, 1990" = "1990-01-01" := by decide

example : normalize_date_string "1990-1-1 " = "1990-01-01" := by decide

example : normalize_date_string "12345-1-1" = "" := by decide

example : normalize_date_string "March  5,  1990" = "1990-03-05" := by decide

example : normalize_date_string "5 March, 1990" = "1990-03-05" := by decide

example : normalize_date_string "1990  March" = "1990-03-01" := by decide

example : normalize_date_string "0000" = "" := by decide

example : normalize_date_string "12019" = "2019-01-01" := by decide

example : normalize_date_string "x 1875 and 2042" = "2042-01-01" := by decide
